import Mathlib

/-!
Verification development for the MediaStreamPro server (a media delivery
system backed by a pool of Google Drive service accounts).

Every definition below is a shallow embedding of a function of the
TypeScript source, translated statement by statement.  Machine numbers of
JavaScript are modelled as `Int` (signed sizes and capacities) or `Nat`
(indices, counters, timestamps); byte sequences as `List Nat`; fallible
code as `Option`.  The source file and line range each definition comes
from is recorded in its doc comment.

Notes on modelling choices used throughout.

JavaScript's `Array.prototype.sort` is (since ES2019) required to be a
stable comparison sort; we embed it as `List.insertionSort`, which is a
stable structural-recursive sort, so concrete runs reduce in the kernel.

File names `chunk_XXXXX` produced by `padStart(5, '0')` share the constant
prefix `chunk_` (and a common directory prefix) with every name they are
ever compared against, and the ASCII digit characters `'0'..'9'` are
order-isomorphic to the digits 0..9, so a lexicographic comparison of two
such strings is decided exactly by the lexicographic comparison of their
padded digit sequences.  We therefore represent a chunk file name by its
padded digit sequence (`List Nat`).
-/

namespace MediaStreamPro

/-- Job status of a conversion, from `JobStatus` in the shared schema:
`'waiting' | 'processing' | 'ready' | 'failed'`. -/
inductive JobStatus where
  | waiting
  | processing
  | ready
  | failed
deriving DecidableEq, Repr

/-- Lifecycle status of an upload (asset), from `FileStatus` in the shared
schema: `'processing' | 'ready' | 'failed'`. -/
inductive FileStatus where
  | processing
  | ready
  | failed
deriving DecidableEq, Repr

/-- A storage (service) account record as returned by
`storage.getAccounts()`: `id`, `storageLimit`, `storageUsed` (bytes, plain
JS numbers, hence `Int`), and the `isActive` flag.  From the `Account`
shape used by `src/server/services/googleDrive.ts`. -/
structure Account where
  id : Nat
  storageLimit : Int
  storageUsed : Int
  isActive : Bool
deriving DecidableEq, Repr

/-- Free space of an account, `account.storageLimit - account.storageUsed`
(`src/server/services/googleDrive.ts:112`). -/
def freeSpace (a : Account) : Int :=
  a.storageLimit - a.storageUsed

/-- One iteration of the selection loop of
`GoogleDriveService.getOptimalServiceAccount`
(`src/server/services/googleDrive.ts:109-117`): skip inactive accounts,
and keep the account with the strictly largest free space seen so far
(`freeSpace > maxFreeSpace`, so the earliest account wins ties). -/
def selectStep (acc : Option Account × Int) (a : Account) : Option Account × Int :=
  if !a.isActive then acc
  else if freeSpace a > acc.2 then (some a, freeSpace a) else acc

/-- Account selection for a write,
`GoogleDriveService.getOptimalServiceAccount`
(`src/server/services/googleDrive.ts:93-133`, identically
`src/unnamed/part_011:104-155`): scan `storage.getAccounts()` with
`maxFreeSpace` initialised to `-1`, returning the active account with the
most absolute free bytes; `none` models the thrown
`'No active service accounts available with free space'`. -/
def getOptimalServiceAccount (accounts : List Account) : Option Account :=
  (accounts.foldl selectStep (none, -1)).1

/-- Reserve-margin predicate, written from the spec's words (for stating
claim C1): an account's free fraction `(capacity-used)/capacity` is below
the 10% reserve margin.  Kept in `Int` arithmetic:
`free/limit < 1/10  ↔  free * 10 < limit` (for positive `limit`). -/
def belowReserveMargin (a : Account) : Prop :=
  freeSpace a * 10 < a.storageLimit

instance (a : Account) : Decidable (belowReserveMargin a) := by
  unfold belowReserveMargin; infer_instance

/-- A list of accounts, the persistent `storage_accounts` collection. -/
abbrev AccountStore := List Account

/-- Lookup of `storage.getAccount(id)` (`MemStorage.getAccount`,
`src/unnamed/part_012:1759-1761`): first record with the given id. -/
def getAccount (st : AccountStore) (accId : Nat) : Option Account :=
  st.find? (fun a => a.id = accId)

/-- Usage write of `storage.updateAccountUsage(id, storageUsed)`
(`MemStorage.updateAccountUsage`, `src/unnamed/part_012:1767-1778`): the
matching account's `storageUsed` field is overwritten with the given
value (an absolute store, not an increment). -/
def updateAccountUsage (st : AccountStore) (accId : Nat) (newUsed : Int) : AccountStore :=
  st.map (fun a => if a.id = accId then { a with storageUsed := newUsed } else a)

/-- Usage bookkeeping of a successful upload,
`GoogleDriveService.uploadFile` (`src/server/services/googleDrive.ts:174-182`,
identically `src/unnamed/part_011:185-200`): read the account record
(`storage.getAccount`), then store `accountInfo.storageUsed + fileStats.size`
(`storage.updateAccountUsage`) — two separate round trips. -/
def uploadFileUsageUpdate (st : AccountStore) (accId : Nat) (size : Int) : AccountStore :=
  match getAccount st accId with
  | some info => updateAccountUsage st accId (info.storageUsed + size)
  | none => st

/-- Phase of one in-flight `uploadFile` call's usage bookkeeping: the read
round trip (`storage.getAccount`) or the write round trip
(`storage.updateAccountUsage`). -/
inductive PutPhase where
  | readPhase
  | writePhase
deriving DecidableEq, Repr

/-- One in-flight put: the size it will add and the value its read round
trip observed (if it has happened yet). -/
structure PutProc where
  size : Int
  readVal : Option Int
deriving DecidableEq, Repr

/-- State of a pool of concurrent puts against one account store. -/
structure PutsState where
  store : AccountStore
  procs : List PutProc
deriving DecidableEq, Repr

/-- Interleaving semantics of N concurrent `uploadFile` usage updates on
the same account: each put performs the read round trip
(`storage.getAccount`, recording `storageUsed`) and later the write round
trip (`storage.updateAccountUsage(id, readValue + size)`), exactly the
two awaits of `src/server/services/googleDrive.ts:176-181`.  Steps of
distinct puts may interleave arbitrarily. -/
def stepPut (accId : Nat) (σ : PutsState) (ev : Nat × PutPhase) : PutsState :=
  match σ.procs.get? ev.1 with
  | none => σ
  | some p =>
    match ev.2 with
    | .readPhase =>
        { σ with procs := σ.procs.set ev.1 { p with readVal := (getAccount σ.store accId).map (·.storageUsed) } }
    | .writePhase =>
        match p.readVal with
        | none => σ
        | some v => { σ with store := updateAccountUsage σ.store accId (v + p.size) }

/-- Run a schedule (list of events, each naming a put and a phase) of
concurrent puts. -/
def runPuts (accId : Nat) (σ : PutsState) (events : List (Nat × PutPhase)) : PutsState :=
  events.foldl (stepPut accId) σ

/-- A schedule is valid for `n` puts when each put appears with exactly
one read and exactly one write, and its read comes before its write (the
order the two awaits execute inside one `uploadFile` call). -/
def validSchedule (n : Nat) (events : List (Nat × PutPhase)) : Prop :=
  ∀ p < n,
    events.count (p, PutPhase.readPhase) = 1 ∧
    events.count (p, PutPhase.writePhase) = 1 ∧
    events.indexOf (p, PutPhase.readPhase) < events.indexOf (p, PutPhase.writePhase)

instance (n : Nat) (events : List (Nat × PutPhase)) : Decidable (validSchedule n events) := by
  unfold validSchedule; infer_instance

/-- Byte sequences (each byte a `Nat`). -/
abbrev Bytes := List Nat

/-- Fuelled base-10 digit extraction; `fuel > Nat.log 10 n` suffices, and
we always pass `n + 1`.  Structural recursion on the fuel keeps concrete
runs kernel-reducible. -/
def natDigitsAux : Nat → Nat → List Nat
  | 0, _ => []
  | fuel + 1, n => if n < 10 then [n] else natDigitsAux fuel (n / 10) ++ [n % 10]

/-- Base-10 digits of a number, most significant first — the digit
sequence of JavaScript's `i.toString()` for a nonnegative integer. -/
def natDigits (n : Nat) : List Nat :=
  natDigitsAux (n + 1) n

/-- Value of a most-significant-first digit sequence (used to reason
about digit comparisons). -/
def digitsVal : List Nat → Nat
  | [] => 0
  | d :: ds => d * 10 ^ ds.length + digitsVal ds

/-- Digit sequence of the chunk file name
`chunk_${i.toString().padStart(5, '0')}` (`Chunker.handleUploadedChunk`,
`src/server/types.d.ts:166`, and `Chunker.combineUploadedChunks`,
`src/server/types.d.ts:199`): the digits of `i` left-padded with zeros to
width 5 (numbers of six or more digits are left unpadded).  The constant
prefix `chunk_` is common to all names ever compared and is omitted, see
the header. -/
def pad5 (n : Nat) : List Nat :=
  List.replicate (5 - (natDigits n).length) 0 ++ natDigits n

/-- Lexicographic comparison of two digit sequences — JavaScript's
default string comparison (`<` on strings) restricted to the digit
suffixes of chunk file names: compare position by position, a missing
position (shorter string that is a prefix) sorting first. -/
def lexLe : List Nat → List Nat → Bool
  | [], _ => true
  | _ :: _, [] => false
  | a :: as, b :: bs => if a < b then true else if b < a then false else lexLe as bs

/-- Propositional form of `lexLe`, the comparator under
`Array.prototype.sort` in `Chunker.mergeChunks`
(`src/server/types.d.ts:120`). -/
def nameLe (x y : List Nat) : Prop := lexLe x y = true

instance : DecidableRel nameLe := fun x y => by unfold nameLe; infer_instance

instance : IsTotal (List Nat) nameLe where
  total := by
    intro a b
    induction a generalizing b with
    | nil => exact Or.inl rfl
    | cons x xs ih =>
      cases b with
      | nil => exact Or.inr rfl
      | cons y ys =>
        rcases Nat.lt_trichotomy x y with h | h | h
        · exact Or.inl (by simp [nameLe, lexLe, h])
        · subst h
          rcases ih ys with h' | h'
          · exact Or.inl (by simpa [nameLe, lexLe] using h')
          · exact Or.inr (by simpa [nameLe, lexLe] using h')
        · exact Or.inr (by simp [nameLe, lexLe, h])

instance : IsTrans (List Nat) nameLe where
  trans := by
    intro a b c hab hbc
    induction a generalizing b c with
    | nil => rfl
    | cons x xs ih =>
      cases b with
      | nil => exact absurd hab (by simp [nameLe, lexLe])
      | cons y ys =>
        cases c with
        | nil => exact absurd hbc (by simp [nameLe, lexLe])
        | cons z zs =>
          simp only [nameLe, lexLe] at hab hbc ⊢
          rcases Nat.lt_trichotomy x y with h1 | h1 | h1
          · rcases Nat.lt_trichotomy y z with h2 | h2 | h2
            · simp [Nat.lt_trans h1 h2]
            · subst h2; simp [h1]
            · simp [h2, Nat.lt_asymm h2] at hbc
          · subst h1
            rcases Nat.lt_trichotomy x z with h2 | h2 | h2
            · simp [h2]
            · subst h2
              simp only [Nat.lt_irrefl, if_false] at hab hbc ⊢
              exact ih ys zs hab hbc
            · simp [h2, Nat.lt_asymm h2] at hbc
          · simp [h1, Nat.lt_asymm h1] at hab

instance : IsAntisymm (List Nat) nameLe where
  antisymm := by
    intro a b hab hba
    induction a generalizing b with
    | nil =>
      cases b with
      | nil => rfl
      | cons y ys => exact absurd hba (by simp [nameLe, lexLe])
    | cons x xs ih =>
      cases b with
      | nil => exact absurd hab (by simp [nameLe, lexLe])
      | cons y ys =>
        simp only [nameLe, lexLe] at hab hba
        rcases Nat.lt_trichotomy x y with h | h | h
        · simp [h, Nat.lt_asymm h] at hba
        · subst h
          simp only [Nat.lt_irrefl, if_false] at hab hba
          rw [ih ys hab hba]
        · simp [h, Nat.lt_asymm h] at hab

/-- A scratch directory, as a list of (file name, contents) pairs in
creation order (`readdir` only ever contributes its length). -/
abbrev Scratch := List (List Nat × Bytes)

/-- Write a file into a directory: overwrite the entry with this name if
present (as `fs.rename` onto an existing path does), else append it. -/
def writeScratchFile (s : Scratch) (nm : List Nat) (b : Bytes) : Scratch :=
  if s.any (fun e => e.1 = nm) then s.map (fun e => if e.1 = nm then (nm, b) else e)
  else s ++ [(nm, b)]

/-- Read a file from a directory by name; `none` models the `ENOENT`
stream error of `createReadStream` on a missing path. -/
def readScratchFile (s : Scratch) (nm : List Nat) : Option Bytes :=
  (s.find? (fun e => e.1 = nm)).map (fun e => e.2)

/-- Accepting one uploaded chunk, `Chunker.handleUploadedChunk`
(`src/server/types.d.ts:154-177`): the uploaded bytes are moved to
`chunk_<pad5 index>` inside the upload's scratch directory, overwriting
any earlier retry of the same index. -/
def handleUploadedChunk (s : Scratch) (chunkIndex : Nat) (b : Bytes) : Scratch :=
  writeScratchFile s (pad5 chunkIndex) b

/-- Read a list of chunk files in the given order, failing at the first
missing file — the sequential read loop of `Chunker.mergeChunks`
(`src/server/types.d.ts:126-135`). -/
def readChunkFiles (dir : List Nat → Option Bytes) : List (List Nat) → Option (List Bytes)
  | [] => some []
  | p :: ps =>
    match dir p with
    | none => none
    | some b => (readChunkFiles dir ps).map (fun rest => b :: rest)

/-- Merging chunk files, `Chunker.mergeChunks` (`src/server/types.d.ts:114-149`):
sort the paths by name (`[...chunkPaths].sort()`, modelled by the stable
`insertionSort` under `nameLe`), then concatenate the file contents in
that order. -/
def mergeChunks (dir : List Nat → Option Bytes) (chunkPaths : List (List Nat)) : Option Bytes :=
  (readChunkFiles dir (List.insertionSort nameLe chunkPaths)).map List.flatten

/-- Combining an upload, `Chunker.combineUploadedChunks`
(`src/server/types.d.ts:182-215`): build the path list
`chunk_<pad5 0> .. chunk_<pad5 (totalChunks-1)>` and merge it. -/
def combineUploadedChunks (dir : List Nat → Option Bytes) (totalChunks : Nat) : Option Bytes :=
  mergeChunks dir ((List.range totalChunks).map pad5)

/-- Chunk count of a file, `Math.ceil(fileSize / chunkSize)`
(`Chunker.chunkFile`, `src/server/types.d.ts:69`). -/
def numChunks (fileSize csize : Nat) : Nat :=
  (fileSize + csize - 1) / csize

/-- The i-th chunk produced by `Chunker.chunkFile`
(`src/server/types.d.ts:73-80`): the bytes from `i * csize` up to
`min(fileSize, (i+1) * csize) - 1` inclusive. -/
def chunkOf (file : Bytes) (csize i : Nat) : Bytes :=
  (file.drop (i * csize)).take csize

/-- Splitting a file, `Chunker.chunkFile` (`src/server/types.d.ts:54-88`):
one chunk per index below `numChunks`. -/
def chunkFile (file : Bytes) (csize : Nat) : List Bytes :=
  (List.range (numChunks file.length csize)).map (chunkOf file csize)

/-- The upload-completion route `POST /api/upload/complete`
(`src/server/routes/upload.ts:146-221`), reduced to the bytes it
assembles: the expected chunk count is *inferred* as the number of files
present in the scratch directory (`files.length`,
`src/server/routes/upload.ts:171-172`), and `combineUploadedChunks` is
called with that count; `none` models the caught merge error (a generic
500, the route has no notion of an incomplete-upload error).  The
subsequent status write `UploadModel.updateOne({ uploadId: ... }, ...)`
(`src/server/routes/upload.ts:194-197`) filters on a field that does not
exist in the upload schema and so matches no document; it does not affect
the assembled bytes modelled here. -/
def completeUpload (s : Scratch) : Option Bytes :=
  combineUploadedChunks (readScratchFile s) s.length

/-- A stored HLS segment record, the fields of `storage.createChunk`
relevant here (`HlsConverter.convertToHls`, `src/unnamed/part_012:160-167`):
record id, parent upload id, zero-based index within the resolution, and
resolution label.  (The source also stores a local path, a remote file id
and a constant duration of 10 seconds.) -/
structure SegmentRec where
  id : Nat
  uploadId : Nat
  index : Nat
  resolution : String
deriving DecidableEq, Repr

/-- The `chunks` collection plus the id counter of the storage layer. -/
structure ChunkStore where
  chunks : List SegmentRec
  nextId : Nat
deriving DecidableEq, Repr

/-- Inserting a segment record, `MemStorage.createChunk`
(`src/unnamed/part_012:1638-1648`): assign the next id and append; records
are never modified afterwards (the storage layer has no chunk update
operation). -/
def createChunk (st : ChunkStore) (uploadId index : Nat) (resolution : String) : ChunkStore :=
  { chunks := st.chunks ++ [⟨st.nextId, uploadId, index, resolution⟩], nextId := st.nextId + 1 }

/-- Index order on segment records, the comparator
`(a, b) => a.index - b.index` of `MemStorage.getChunksByUploadId`
(`src/unnamed/part_012:1659`). -/
def segIndexLe (a b : SegmentRec) : Prop := a.index ≤ b.index

instance : DecidableRel segIndexLe := fun a b => by unfold segIndexLe; infer_instance

instance : IsTotal SegmentRec segIndexLe where
  total := fun a b => Nat.le_total a.index b.index

instance : IsTrans SegmentRec segIndexLe where
  trans := fun _ _ _ hab hbc => Nat.le_trans hab hbc

/-- Segment query `storage.getChunksByUploadId(uploadId, resolution?)`
(`MemStorage.getChunksByUploadId`, `src/unnamed/part_012:1650-1660`):
filter by upload id, optionally by resolution, and sort ascending by
index. -/
def getChunksByUploadId (st : ChunkStore) (uploadId : Nat) (resolution : Option String) :
    List SegmentRec :=
  let base := st.chunks.filter (fun c => c.uploadId = uploadId)
  let filtered :=
    match resolution with
    | some r => base.filter (fun c => c.resolution = r)
    | none => base
  List.insertionSort segIndexLe filtered

/-- The per-resolution playlist builder `HlsConverter.generatePlaylist`
(`src/unnamed/part_012:314-355`), reduced to its entry list: it loads the
segment records (sorted by index), throws `No chunks found ...` when none
exist (modelled by `none`), and otherwise emits one `#EXTINF` entry per
record in that order, ending with `#EXT-X-ENDLIST`.  When no resolution
is passed it falls back to the first record's resolution.  It never
consults the conversion job's status. -/
def generatePlaylist (st : ChunkStore) (uploadId : Nat) (resolution : Option String) :
    Option (List SegmentRec) :=
  let chunks := getChunksByUploadId st uploadId resolution
  match chunks with
  | [] => none
  | c0 :: _ =>
    match resolution with
    | some _ => some chunks
    | none =>
      let filtered := chunks.filter (fun c => c.resolution = c0.resolution)
      if filtered.isEmpty then none else some filtered

/-- Encoding settings of one resolution, from `resolutionSettings`
(`src/unnamed/part_012:11-30`); bitrates in k-units as parsed by
`parseInt`. -/
structure ResolutionSetting where
  width : Nat
  height : Nat
  videoBitrate : Nat
  audioBitrate : Nat
deriving DecidableEq, Repr

/-- The fixed settings table `resolutionSettings`
(`src/unnamed/part_012:11-30`): exactly the keys `1080p`, `720p`, `360p`. -/
def resolutionSettings : List (String × ResolutionSetting) :=
  [("1080p", ⟨1920, 1080, 5000, 192⟩),
   ("720p", ⟨1280, 720, 2500, 128⟩),
   ("360p", ⟨640, 360, 800, 96⟩)]

/-- Settings lookup `resolutionSettings[resolution]`. -/
def settingsFor (r : String) : Option ResolutionSetting :=
  (resolutionSettings.find? (fun e => e.1 = r)).map (fun e => e.2)

/-- First-occurrence deduplication, JavaScript's
`Array.from(new Set(list))` (`src/unnamed/part_012:287`). -/
def jsSetDedup (l : List String) : List String :=
  l.foldl (fun acc r => if r ∈ acc then acc else acc ++ [r]) []

/-- The master playlist builder `HlsConverter.generateMasterPlaylist`
(`src/unnamed/part_012:284-309`), reduced to its entry list: collect the
distinct resolution labels of the upload's segment records, and emit one
`#EXT-X-STREAM-INF` entry per label that has settings, silently skipping
labels without settings (`if (!settings) continue`). -/
def generateMasterPlaylist (st : ChunkStore) (uploadId : Nat) :
    List (String × ResolutionSetting) :=
  let resolutions := jsSetDedup ((getChunksByUploadId st uploadId none).map (fun c => c.resolution))
  resolutions.filterMap (fun r => (settingsFor r).map (fun s => (r, s)))

/-- A conversion job record, from `MemStorage.createConversion` and the
`Conversion` shape (`src/unnamed/part_012:1667-1679`). -/
structure Conversion where
  id : Nat
  uploadId : Nat
  resolution : String
  status : JobStatus
  progress : Nat
  error : Option String
deriving DecidableEq, Repr

/-- Status update `storage.updateConversionStatus(id, status, progress?)`
(`MemStorage.updateConversionStatus`, `src/unnamed/part_012:1690-1715`):
overwrite the status and, when given, the progress of the matching job. -/
def updateConversionStatus (convs : List Conversion) (cid : Nat) (st : JobStatus)
    (progress : Option Nat) : List Conversion :=
  convs.map (fun c =>
    if c.id = cid then { c with status := st, progress := progress.getD c.progress } else c)

/-- Error update `storage.updateConversionError(id, error)`
(`MemStorage.updateConversionError`, `src/unnamed/part_012:1730-1742`):
record the message and force status `failed`. -/
def updateConversionError (convs : List Conversion) (cid : Nat) (msg : String) :
    List Conversion :=
  convs.map (fun c =>
    if c.id = cid then { c with error := some msg, status := JobStatus.failed } else c)

/-- Conversion jobs of one upload together with that upload's own status
field — the state read and written by the terminal handlers of
`HlsConverter.convertToHls`. -/
structure HlsState where
  convs : List Conversion
  uploadStatus : FileStatus
deriving DecidableEq, Repr

/-- The check `conversions.every(conv => conv.status === 'ready' || conv.status === 'failed')`
over `storage.getConversionsByUploadId(uploadId)`
(`src/unnamed/part_012:191-192`). -/
def allJobsTerminal (convs : List Conversion) (uploadId : Nat) : Bool :=
  (convs.filter (fun c => c.uploadId = uploadId)).all
    (fun c => c.status == JobStatus.ready || c.status == JobStatus.failed)

/-- Tail of the success (`end`) handler of `HlsConverter.convertToHls`
(`src/unnamed/part_012:188-196`): mark this job `ready` at progress 100;
then, if every job of the upload is now terminal, set the upload's status
to `ready` — this is the only place the upload status is touched. -/
def convertEndHandler (σ : HlsState) (uploadId cid : Nat) : HlsState :=
  let convs := updateConversionStatus σ.convs cid JobStatus.ready (some 100)
  if allJobsTerminal convs uploadId then { convs := convs, uploadStatus := FileStatus.ready }
  else { convs := convs, uploadStatus := σ.uploadStatus }

/-- The failure (`error`) handler of `HlsConverter.convertToHls`
(`src/unnamed/part_012:207-211`, and the surrounding catch,
`src/unnamed/part_012:214-218`): record the error on the job (status
`failed`); the upload's status is not touched. -/
def convertErrorHandler (σ : HlsState) (cid : Nat) (msg : String) : HlsState :=
  { σ with convs := updateConversionError σ.convs cid msg }

/-- The segment upload loop of the `end` handler
(`src/unnamed/part_012:151-168`): create one segment record per produced
file, with indices `0 .. count-1` in order. -/
def uploadSegments (st : ChunkStore) (uploadId : Nat) (resolution : String) (count : Nat) :
    ChunkStore :=
  (List.range count).foldl (fun acc i => createChunk acc uploadId i resolution) st

/-- One terminal run of the segment upload loop for a conversion: either
the loop ran to completion (`count` segments, after which the job was
marked `ready`), or a provider call threw after `count` records had
already been created (the job was then marked `failed`; an operator retry
re-enqueues the conversion, which runs the loop again from index 0 —
`POST /api/job/hls/create`, `src/server/routes/files.ts:473-489`).  Both
shapes touch the chunk store in the same append-only way. -/
inductive SegmentOp where
  | finished (uploadId : Nat) (resolution : String) (count : Nat)
  | interrupted (uploadId : Nat) (resolution : String) (count : Nat)
deriving DecidableEq, Repr

/-- Effect of one terminal run on the chunk store. -/
def applySegmentOp (st : ChunkStore) (op : SegmentOp) : ChunkStore :=
  match op with
  | .finished u r k => uploadSegments st u r k
  | .interrupted u r k => uploadSegments st u r k

/-- Chunk store reached from an empty store by a sequence of terminal
conversion runs. -/
def runSegmentOps (ops : List SegmentOp) : ChunkStore :=
  ops.foldl applySegmentOp ⟨[], 1⟩

/-- The per-(upload, resolution) segment invariant claimed by the spec:
the stored indices are exactly `0 .. N-1`, without gaps or duplicates,
and sorting by index is the playback order. -/
def contiguousSegments (st : ChunkStore) (uploadId : Nat) (resolution : String) : Prop :=
  ((getChunksByUploadId st uploadId (some resolution)).map (fun c => c.index)) =
    List.range (getChunksByUploadId st uploadId (some resolution)).length

instance (st : ChunkStore) (u : Nat) (r : String) : Decidable (contiguousSegments st u r) := by
  unfold contiguousSegments; infer_instance

/-- Response entry pushed by the conversion-creation route for one
requested resolution (`jobs.push(...)`,
`src/server/routes/files.ts:462-521`). -/
structure JobResult where
  conversionId : Nat
  resolution : String
  status : JobStatus
deriving DecidableEq, Repr

/-- State threaded through the conversion-creation route: the
`conversion_jobs` collection, its id counter, and the broker queue
(modelled as the list of `(conversionId, resolution)` pairs passed to
`jobQueue.addHlsConversionJob`). -/
structure RouteState where
  convs : List Conversion
  nextConvId : Nat
  queue : List (Nat × String)
deriving DecidableEq, Repr

/-- The duplicate lookup of the route
(`src/server/routes/files.ts:459-460`):
`getConversionsByUploadId(uploadId).find(c => c.resolution === resolution)`. -/
def findExistingConversion (convs : List Conversion) (uploadId : Nat) (res : String) :
    Option Conversion :=
  (convs.filter (fun c => c.uploadId = uploadId)).find? (fun c => c.resolution = res)

/-- One iteration of the resolution loop of `POST /api/job/hls/create`
(`src/server/routes/files.ts:457-522`): an existing `ready` job is
reported as complete with no state change; an existing `failed` job is
reset to `waiting` with progress 0 and re-enqueued; an existing
`processing` or `waiting` job is reported with its current status and no
state change; otherwise a fresh `waiting` job is created and enqueued. -/
def hlsCreateStep (uploadId : Nat) (σ : RouteState) (res : String) : JobResult × RouteState :=
  match findExistingConversion σ.convs uploadId res with
  | some ec =>
    match ec.status with
    | .ready => (⟨ec.id, res, JobStatus.ready⟩, σ)
    | .failed =>
        (⟨ec.id, res, JobStatus.waiting⟩,
         { σ with convs := updateConversionStatus σ.convs ec.id JobStatus.waiting (some 0),
                  queue := σ.queue ++ [(ec.id, res)] })
    | .processing => (⟨ec.id, res, ec.status⟩, σ)
    | .waiting => (⟨ec.id, res, ec.status⟩, σ)
  | none =>
      (⟨σ.nextConvId, res, JobStatus.waiting⟩,
       { convs := σ.convs ++ [⟨σ.nextConvId, uploadId, res, JobStatus.waiting, 0, none⟩],
         nextConvId := σ.nextConvId + 1,
         queue := σ.queue ++ [(σ.nextConvId, res)] })

/-- The whole route body: the loop over the requested resolutions
(`src/server/routes/files.ts:457`), re-reading the collection each
iteration. -/
def hlsCreateRoute (uploadId : Nat) (σ : RouteState) (resolutions : List String) :
    List JobResult × RouteState :=
  resolutions.foldl
    (fun acc res =>
      let step := hlsCreateStep uploadId acc.2 res
      (acc.1 ++ [step.1], step.2))
    ([], σ)

/-- The on-disk segment cache directory: file name to mtime (ms). -/
abbrev CacheDir := List (String × Nat)

/-- Cache file lookup (existence plus `fs.stat(...).mtimeMs`). -/
def cacheLookup (cache : CacheDir) (nm : String) : Option Nat :=
  (cache.find? (fun e => e.1 = nm)).map (fun e => e.2)

/-- Writing a downloaded file into the cache (mtime = now), overwriting a
previous copy of the same name. -/
def cacheWrite (cache : CacheDir) (nm : String) (mtime : Nat) : CacheDir :=
  if cache.any (fun e => e.1 = nm) then cache.map (fun e => if e.1 = nm then (nm, mtime) else e)
  else cache ++ [(nm, mtime)]

/-- The default cache lifetime of
`FileProcessor.getFileFromCacheOrDownload`:
`24 * 60 * 60 * 1000` ms, i.e. 24 hours
(`src/server/services/fileProcessor.ts:212`). -/
def maxCacheTimeDefault : Nat := 24 * 60 * 60 * 1000

/-- The 7-day lifetime named by the spec, in ms (for stating claim C8). -/
def sevenDaysMs : Nat := 7 * 24 * 60 * 60 * 1000

/-- Cache-or-download with an explicit lifetime,
`FileProcessor.getFileFromCacheOrDownload`
(`src/server/services/fileProcessor.ts:209-235`): if the file
`<externalFileId><suffix>` exists in the cache directory and
`Date.now() - mtimeMs < maxCacheTime`, return it without downloading;
otherwise download from the provider into the cache path.  The returned
flag records whether a provider download happened. -/
def getFileFromCacheOrDownloadWith (cache : CacheDir) (now : Nat)
    (externalFileId suffix : String) (maxCacheTime : Nat) : Bool × CacheDir :=
  let nm := externalFileId ++ suffix
  match cacheLookup cache nm with
  | some mtime =>
      if now - mtime < maxCacheTime then (false, cache)
      else (true, cacheWrite cache nm now)
  | none => (true, cacheWrite cache nm now)

/-- The segment-streaming call `GET /api/chunk/hls-stream`
(`src/unnamed/part_010:127-130`): `getFileFromCacheOrDownload` is called
without a `maxCacheTime` argument, so the 24-hour default applies. -/
def getFileFromCacheOrDownload (cache : CacheDir) (now : Nat)
    (externalFileId suffix : String) : Bool × CacheDir :=
  getFileFromCacheOrDownloadWith cache now externalFileId suffix maxCacheTimeDefault

/-- Number of conversion records for one (upload, resolution) pair. -/
def pairCount (convs : List Conversion) (uploadId : Nat) (res : String) : Nat :=
  (convs.filter (fun c => c.uploadId = uploadId ∧ c.resolution = res)).length

/-- The 1 TB-scale input refuting claim C3: a file of 100001 one-byte
chunks whose very last byte is the only nonzero one. -/
def fileBig : Bytes := List.replicate 100000 0 ++ [1]

/-- In-order, gap-free acceptance of all 100001 chunks of `fileBig` at
chunk size 1. -/
def eventsBig : List (Nat × Bytes) :=
  (List.range 100001).map (fun i => (i, chunkOf fileBig 1 i))

/-- Byte stored under a chunk file name after accepting `eventsBig`: 1
for the name of index 100000 (the file's only nonzero byte), else 0. -/
def lastByteMark (nm : List Nat) : Nat :=
  if nm = pad5 100000 then 1 else 0

/-! Lemmas about the embedded operations. -/

theorem foldl_selectStep_spec (accounts : List Account) (st : Option Account × Int) :
    (∀ b ∈ accounts, b.isActive = true → freeSpace b ≤ (accounts.foldl selectStep st).2)
    ∧ st.2 ≤ (accounts.foldl selectStep st).2
    ∧ (accounts.foldl selectStep st = st ∨
        ∃ a ∈ accounts, a.isActive = true ∧
          (accounts.foldl selectStep st).1 = some a ∧
          (accounts.foldl selectStep st).2 = freeSpace a) := by
  induction accounts generalizing st with
  | nil => exact ⟨by simp, le_refl _, Or.inl rfl⟩
  | cons x xs ih =>
    have hstep : List.foldl selectStep st (x :: xs) = List.foldl selectStep (selectStep st x) xs :=
      rfl
    obtain ⟨ih1, ih2, ih3⟩ := ih (selectStep st x)
    have hmono : st.2 ≤ (selectStep st x).2 := by
      unfold selectStep
      split
      · exact le_refl _
      · split
        · exact le_of_lt (by assumption)
        · exact le_refl _
    refine ⟨?_, ?_, ?_⟩
    · intro b hb hact
      rcases List.mem_cons.mp hb with hbx | hbxs
      · subst hbx
        have : freeSpace b ≤ (selectStep st b).2 := by
          unfold selectStep
          rw [hact]
          simp only [Bool.not_true, Bool.false_eq_true, if_false]
          split
          · exact le_refl _
          · exact le_of_not_lt (by assumption)
        calc freeSpace b ≤ (selectStep st b).2 := this
          _ ≤ (List.foldl selectStep (selectStep st b) xs).2 := ih2
          _ = (List.foldl selectStep st (b :: xs)).2 := rfl
      · rw [hstep]; exact ih1 b hbxs hact
    · rw [hstep]; exact le_trans hmono ih2
    · rw [hstep]
      rcases ih3 with heq | ⟨a, ha, hact, h1, h2⟩
      · rw [heq]
        by_cases hact : x.isActive = true
        · by_cases hgt : freeSpace x > st.2
          · refine Or.inr ⟨x, List.mem_cons_self x xs, hact, ?_, ?_⟩
            · simp [selectStep, hact, hgt]
            · simp [selectStep, hact, hgt]
          · have : selectStep st x = st := by simp [selectStep, hact, hgt]
            rw [this]; exact Or.inl rfl
        · have : selectStep st x = st := by
            unfold selectStep
            rw [Bool.not_eq_true] at hact
            simp [hact]
          rw [this]; exact Or.inl rfl
      · exact Or.inr ⟨a, List.mem_cons_of_mem x ha, hact, h1, h2⟩

theorem getAccount_updateAccountUsage (st : AccountStore) (accId : Nat) (v : Int) :
    getAccount (updateAccountUsage st accId v) accId =
      (getAccount st accId).map (fun a => { a with storageUsed := v }) := by
  induction st with
  | nil => rfl
  | cons h t ih =>
    by_cases hh : h.id = accId
    · simp [getAccount, updateAccountUsage, List.find?_cons, hh]
    · simp only [getAccount, updateAccountUsage, List.map_cons, List.find?_cons, hh, if_false,
        decide_eq_true_eq] at ih ⊢
      simpa using ih

theorem cacheLookup_cacheWrite (cache : CacheDir) (nm : String) (t : Nat) :
    cacheLookup (cacheWrite cache nm t) nm = some t := by
  unfold cacheWrite
  by_cases hany : cache.any (fun e => e.1 = nm) = true
  · rw [if_pos hany]
    induction cache with
    | nil => simp at hany
    | cons e rest ih =>
      by_cases he : e.1 = nm
      · simp [cacheLookup, List.find?_cons, he]
      · have hrest : rest.any (fun e => e.1 = nm) = true := by
          rcases List.any_eq_true.mp hany with ⟨x, hx, hx2⟩
          rcases List.mem_cons.mp hx with hxe | hxr
          · subst hxe; simp [he] at hx2
          · exact List.any_eq_true.mpr ⟨x, hxr, hx2⟩
        simp only [cacheLookup, List.map_cons, List.find?_cons, he, if_false,
          decide_eq_true_eq] at ih ⊢
        simpa using ih hrest
  · rw [if_neg hany]
    have hnone : cache.find? (fun e => decide (e.1 = nm)) = none := by
      rw [List.find?_eq_none]
      intro x hx
      intro hmatch
      exact hany (List.any_eq_true.mpr ⟨x, hx, hmatch⟩)
    unfold cacheLookup
    rw [List.find?_append, hnone]
    simp

/-!  Claim C1: account selection for a write.  -/

/-- Claim C1, counterexample.  The claimed reserve-margin policy is
refuted on a concrete pool: account 1 (capacity 100, used 95) has free
fraction 5% — below the 10% reserve margin — while the active account 2
(capacity 10, used 6) has free fraction 40%; `getOptimalServiceAccount`
nevertheless returns account 1, because 5 free bytes exceed 4 free
bytes.  The code has no margin logic at all. -/
theorem C1_counterexample :
    getOptimalServiceAccount
        [⟨1, 100, 95, true⟩, ⟨2, 10, 6, true⟩] = some ⟨1, 100, 95, true⟩
    ∧ belowReserveMargin ⟨1, 100, 95, true⟩
    ∧ (⟨2, 10, 6, true⟩ : Account).isActive = true
    ∧ ¬ belowReserveMargin ⟨2, 10, 6, true⟩ := by
  refine ⟨by decide, by decide, rfl, by decide⟩

/-- Claim C1, amended: `getOptimalServiceAccount` returns an active
stored account with the greatest absolute free bytes among all active
accounts (no reserve or comfort margin is consulted, and ties favour the
earliest account, not the smallest id); it fails only when no active
account has nonnegative free space. -/
theorem C1_amended (accounts : List Account) :
    (∀ a, getOptimalServiceAccount accounts = some a →
        a.isActive = true ∧ a ∈ accounts ∧
        ∀ b ∈ accounts, b.isActive = true → freeSpace b ≤ freeSpace a)
    ∧ (getOptimalServiceAccount accounts = none →
        ∀ b ∈ accounts, b.isActive = true → freeSpace b < 0) := by
  obtain ⟨h1, _h2, h3⟩ := foldl_selectStep_spec accounts (none, -1)
  constructor
  · intro a ha
    rcases h3 with heq | ⟨c, hc, hact, hfst, hsnd⟩
    · rw [getOptimalServiceAccount, heq] at ha
      exact absurd ha (by simp)
    · rw [getOptimalServiceAccount, hfst] at ha
      injection ha with ha
      subst ha
      refine ⟨hact, hc, ?_⟩
      intro b hb hbact
      rw [← hsnd]
      exact h1 b hb hbact
  · intro hnone b hb hbact
    rcases h3 with heq | ⟨c, _hc, _hact, hfst, _hsnd⟩
    · have : (accounts.foldl selectStep (none, -1)).2 = -1 := by rw [heq]
      have := h1 b hb hbact
      omega
    · rw [getOptimalServiceAccount, hfst] at hnone
      exact absurd hnone (by simp)

/-- Claim C1, amended, witness: in the two-account pool of the
counterexample the selected account 1 indeed maximises free bytes. -/
theorem C1_amended_witness :
    freeSpace ⟨2, 10, 6, true⟩ ≤ freeSpace ⟨1, 100, 95, true⟩ :=
  ((C1_amended [⟨1, 100, 95, true⟩, ⟨2, 10, 6, true⟩]).1
      ⟨1, 100, 95, true⟩ (by decide)).2.2 ⟨2, 10, 6, true⟩ (by decide) rfl

/-!  Claim C2: used-bytes accounting of `put`.  -/

/-- Claim C2, counterexample.  The usage update of `uploadFile` is a read
(`storage.getAccount`) followed by a separate absolute write
(`storage.updateAccountUsage`); under the interleaving
read₀ read₁ write₀ write₁ of two concurrent puts of sizes 5 and 7 on the
same account (initially 0 bytes used), the final counter is 7, not
0 + 5 + 7 — the first put's update is lost. -/
theorem C2_counterexample :
    validSchedule 2 [(0, .readPhase), (1, .readPhase), (0, .writePhase), (1, .writePhase)]
    ∧ (runPuts 1 ⟨[⟨1, 100, 0, true⟩], [⟨5, none⟩, ⟨7, none⟩]⟩
        [(0, .readPhase), (1, .readPhase), (0, .writePhase), (1, .writePhase)]).store.map
          (fun a => a.storageUsed) = [7]
    ∧ (7 : Int) ≠ 0 + (5 + 7) := by
  refine ⟨by decide, by decide, by decide⟩

/-- Claim C2, amended: in the absence of interleaving the accounting is
correct — one `uploadFile` usage update adds exactly the uploaded size to
the chosen account's counter, and any sequence of non-overlapping updates
adds the sum of their sizes; but because the update is an absolute write
computed from a separately read value, interleaved puts on the same
account can lose updates (see the counterexample). -/
theorem C2_amended (st : AccountStore) (accId : Nat) (a : Account)
    (h : getAccount st accId = some a) :
    (∀ size : Int, getAccount (uploadFileUsageUpdate st accId size) accId =
        some { a with storageUsed := a.storageUsed + size })
    ∧ ∀ sizes : List Int,
        getAccount (sizes.foldl (fun τ s => uploadFileUsageUpdate τ accId s) st) accId =
          some { a with storageUsed := a.storageUsed + sizes.sum } := by
  have hsingle : ∀ (τ : AccountStore) (b : Account), getAccount τ accId = some b →
      ∀ size : Int, getAccount (uploadFileUsageUpdate τ accId size) accId =
        some { b with storageUsed := b.storageUsed + size } := by
    intro τ b hb size
    unfold uploadFileUsageUpdate
    rw [hb, getAccount_updateAccountUsage, hb]
    rfl
  refine ⟨hsingle st a h, ?_⟩
  intro sizes
  induction sizes generalizing st a with
  | nil => simpa using h
  | cons s rest ih =>
    have hstep := hsingle st a h s
    have := ih (uploadFileUsageUpdate st accId s) { a with storageUsed := a.storageUsed + s } hstep
    rw [List.foldl_cons, this]
    simp only [List.sum_cons]
    congr 1
    simp [add_assoc]

/-- Claim C2, amended, witness: a single put of size 5 on an account with
0 bytes used leaves the counter at 5. -/
theorem C2_amended_witness :
    getAccount (uploadFileUsageUpdate [⟨1, 100, 0, true⟩] 1 5) 1 =
      some ⟨1, 100, 0 + 5, true⟩ :=
  (C2_amended [⟨1, 100, 0, true⟩] 1 ⟨1, 100, 0, true⟩ (by decide)).1 5

/-!  Claim C6: terminal aggregation of an asset's conversion jobs.  -/

/-- Claim C6, counterexample.  Two jobs of upload 1: job 1 succeeds
first (its `end` handler finds job 2 still processing, so the upload is
untouched), then job 2 fails (the error handler never touches the
upload).  All jobs are terminal and one is `ready`, yet the upload's
status is still `processing`, not `ready`.  Likewise, when both jobs
fail, the upload never becomes `failed`. -/
theorem C6_counterexample :
    (allJobsTerminal (convertErrorHandler
        (convertEndHandler
          ⟨[⟨1, 1, "720p", .processing, 0, none⟩, ⟨2, 1, "360p", .processing, 0, none⟩],
            .processing⟩ 1 1) 2 "boom").convs 1 = true
      ∧ ((convertErrorHandler
          (convertEndHandler
            ⟨[⟨1, 1, "720p", .processing, 0, none⟩, ⟨2, 1, "360p", .processing, 0, none⟩],
              .processing⟩ 1 1) 2 "boom").convs.any
            (fun c => c.status == JobStatus.ready)) = true
      ∧ (convertErrorHandler
          (convertEndHandler
            ⟨[⟨1, 1, "720p", .processing, 0, none⟩, ⟨2, 1, "360p", .processing, 0, none⟩],
              .processing⟩ 1 1) 2 "boom").uploadStatus ≠ FileStatus.ready)
    ∧ (allJobsTerminal (convertErrorHandler
        (convertErrorHandler
          ⟨[⟨1, 1, "720p", .processing, 0, none⟩, ⟨2, 1, "360p", .processing, 0, none⟩],
            .processing⟩ 1 "a") 2 "b").convs 1 = true
      ∧ (convertErrorHandler
          (convertErrorHandler
            ⟨[⟨1, 1, "720p", .processing, 0, none⟩, ⟨2, 1, "360p", .processing, 0, none⟩],
              .processing⟩ 1 "a") 2 "b").uploadStatus ≠ FileStatus.failed) := by
  refine ⟨⟨by decide, by decide, by decide⟩, by decide, by decide⟩

/-- Claim C6, amended: the upload's status is only ever changed by the
success handler — it becomes `ready` exactly when a job succeeds and at
that moment every job of the upload is terminal; a job failure (and hence
any run in which the last job to finish fails, or in which all jobs fail)
leaves the upload's status untouched, so the upload never becomes
`failed` through the conversion pipeline. -/
theorem C6_amended (σ : HlsState) (u cid : Nat) (msg : String) :
    (convertErrorHandler σ cid msg).uploadStatus = σ.uploadStatus
    ∧ (allJobsTerminal (updateConversionStatus σ.convs cid JobStatus.ready (some 100)) u = true →
        (convertEndHandler σ u cid).uploadStatus = FileStatus.ready)
    ∧ (allJobsTerminal (updateConversionStatus σ.convs cid JobStatus.ready (some 100)) u = false →
        (convertEndHandler σ u cid).uploadStatus = σ.uploadStatus)
    ∧ ∀ failures : List (Nat × String),
        (failures.foldl (fun τ e => convertErrorHandler τ e.1 e.2) σ).uploadStatus =
          σ.uploadStatus := by
  refine ⟨rfl, ?_, ?_, ?_⟩
  · intro hall
    unfold convertEndHandler
    rw [if_pos hall]
  · intro hall
    unfold convertEndHandler
    rw [if_neg (by simp [hall])]
  · intro failures
    induction failures generalizing σ with
    | nil => rfl
    | cons f rest ih => exact ih (convertErrorHandler σ f.1 f.2)

/-- Claim C6, amended, witness: with a single job, its successful end
marks the upload ready. -/
theorem C6_amended_witness :
    (convertEndHandler ⟨[⟨1, 1, "720p", .processing, 0, none⟩], .processing⟩ 1 1).uploadStatus =
      FileStatus.ready :=
  (C6_amended ⟨[⟨1, 1, "720p", .processing, 0, none⟩], .processing⟩ 1 1 "").2.1 (by decide)

/-!  Claim C8: segment cache lifetime.  -/

/-- Claim C8, counterexample.  A segment blob is fetched at time 0 and
again two days later.  Two days is well inside the 7-day lifetime the
claim names, yet the second call downloads from the provider again,
because the lifetime actually applied by
`getFileFromCacheOrDownload` is the 24-hour default. -/
theorem C8_counterexample :
    (getFileFromCacheOrDownload [] 0 "blob" ".ts").1 = true
    ∧ 172800000 - 0 < sevenDaysMs
    ∧ maxCacheTimeDefault ≠ sevenDaysMs
    ∧ (getFileFromCacheOrDownload
        (getFileFromCacheOrDownload [] 0 "blob" ".ts").2 172800000 "blob" ".ts").1 = true := by
  refine ⟨by decide, by decide, by decide, by decide⟩

/-- Claim C8, amended: the lifetime applied to cached segment files is
24 hours, not 7 days; within it the behaviour is as claimed — a first
fetch of an uncached blob downloads, and a second fetch of the same blob
skips the provider download exactly when it happens less than 24 hours
(in ms) after the first. -/
theorem C8_amended (cache : CacheDir) (t0 t1 : Nat) (fid suffix : String)
    (h : cacheLookup cache (fid ++ suffix) = none) :
    (getFileFromCacheOrDownload cache t0 fid suffix).1 = true
    ∧ ((getFileFromCacheOrDownload
          (getFileFromCacheOrDownload cache t0 fid suffix).2 t1 fid suffix).1 = false ↔
        t1 - t0 < maxCacheTimeDefault) := by
  have hfirst : getFileFromCacheOrDownload cache t0 fid suffix =
      (true, cacheWrite cache (fid ++ suffix) t0) := by
    simp only [getFileFromCacheOrDownload, getFileFromCacheOrDownloadWith, h]
  refine ⟨by rw [hfirst], ?_⟩
  rw [hfirst]
  simp only [getFileFromCacheOrDownload, getFileFromCacheOrDownloadWith, cacheLookup_cacheWrite]
  by_cases hlt : t1 - t0 < maxCacheTimeDefault
  · simp [hlt]
  · simp [hlt]

/-- Claim C8, amended, witness: fetch at time 0, refetch at time 1 — the
second call is served from the cache. -/
theorem C8_amended_witness :
    (getFileFromCacheOrDownload [] 0 "blob" ".ts").1 = true
    ∧ ((getFileFromCacheOrDownload
          (getFileFromCacheOrDownload [] 0 "blob" ".ts").2 1 "blob" ".ts").1 = false ↔
        1 - 0 < maxCacheTimeDefault) :=
  C8_amended [] 0 1 "blob" ".ts" rfl

/-!  Claim C4: per-resolution manifests and conversion state.  -/

/-- Claim C4, counterexample.  The conversion job for (upload 1, 720p)
has just been moved to `processing`, and the segment upload loop has so
far created one of its records; `generatePlaylist` nevertheless returns a
manifest with that single entry — neither a failure nor an empty entry
list — i.e. a truncated mid-stream manifest (the source even appends
`#EXT-X-ENDLIST` to it).  `generatePlaylist` never reads the job's
status. -/
theorem C4_counterexample :
    (updateConversionStatus [⟨1, 1, "720p", JobStatus.waiting, 0, none⟩] 1
        JobStatus.processing (some 0)).all (fun c => c.status == JobStatus.processing) = true
    ∧ generatePlaylist (uploadSegments ⟨[], 1⟩ 1 "720p" 1) 1 (some "720p") ≠ none
    ∧ generatePlaylist (uploadSegments ⟨[], 1⟩ 1 "720p" 1) 1 (some "720p") ≠ some [] := by
  refine ⟨by decide, by decide, by decide⟩

/-- Claim C4, amended: `generatePlaylist` lists exactly the segment
records currently stored for the (upload, resolution) pair, sorted
ascending by index — in particular exactly `0..K-1` whenever the stored
indices are exactly `0..K-1`, as they are once the conversion's upload
loop has finished — and it fails (`No chunks found`) exactly when no
record exists; it does not consult the ConversionJob, so while a job is
`processing` with some segments already recorded it returns a truncated
manifest rather than failing. -/
theorem C4_amended (st : ChunkStore) (uploadId : Nat) (res : String) :
    (generatePlaylist st uploadId (some res) = none ↔
      getChunksByUploadId st uploadId (some res) = [])
    ∧ (∀ l, generatePlaylist st uploadId (some res) = some l →
        l = getChunksByUploadId st uploadId (some res))
    ∧ List.Sorted segIndexLe (getChunksByUploadId st uploadId (some res))
    ∧ ∀ K, ((getChunksByUploadId st uploadId (some res)).map (fun c => c.index)).Perm
          (List.range K) →
        (getChunksByUploadId st uploadId (some res)).map (fun c => c.index) = List.range K := by
  have hsorted : List.Sorted segIndexLe (getChunksByUploadId st uploadId (some res)) := by
    simp only [getChunksByUploadId]
    exact List.sorted_insertionSort segIndexLe _
  refine ⟨?_, ?_, hsorted, ?_⟩
  · cases hc : getChunksByUploadId st uploadId (some res) with
    | nil => simp [generatePlaylist, hc]
    | cons c0 t => simp [generatePlaylist, hc]
  · intro l hl
    cases hc : getChunksByUploadId st uploadId (some res) with
    | nil => simp [generatePlaylist, hc] at hl
    | cons c0 t =>
      simp only [generatePlaylist, hc] at hl
      injection hl with hl
      rw [← hl]
  · intro K hperm
    have hmap : List.Sorted (· ≤ ·)
        ((getChunksByUploadId st uploadId (some res)).map (fun c => c.index)) := by
      rw [List.Sorted, List.pairwise_map]
      exact List.Pairwise.imp (fun h => h) hsorted
    exact List.eq_of_perm_of_sorted hperm hmap
      (List.pairwise_le_range K)

/-- Claim C4, amended, witness: a store holding exactly index 0 for
(upload 1, 720p) yields the manifest indices `0..0`. -/
theorem C4_amended_witness :
    (getChunksByUploadId ⟨[⟨1, 1, 0, "720p"⟩], 2⟩ 1 (some "720p")).map (fun c => c.index) =
      List.range 1 :=
  (C4_amended ⟨[⟨1, 1, 0, "720p"⟩], 2⟩ 1 "720p").2.2.2 1 (by decide)

/-!  Claim C5: the duplicate-submission guard of the conversion route.  -/

theorem pairCount_updateConversionStatus (convs : List Conversion) (cid : Nat)
    (stj : JobStatus) (pr : Option Nat) (u : Nat) (r : String) :
    pairCount (updateConversionStatus convs cid stj pr) u r = pairCount convs u r := by
  unfold pairCount updateConversionStatus
  rw [List.filter_map, List.length_map]
  congr 1
  apply List.filter_congr
  intro c _
  by_cases hc : c.id = cid
  · simp [hc]
  · simp [hc]

theorem findExistingConversion_none_iff (convs : List Conversion) (u : Nat) (r : String) :
    findExistingConversion convs u r = none ↔ pairCount convs u r = 0 := by
  unfold findExistingConversion pairCount
  rw [List.find?_eq_none, List.length_eq_zero, List.filter_eq_nil_iff]
  constructor
  · intro h c hc hcp
    rw [decide_eq_true_eq] at hcp
    have hmem : c ∈ convs.filter (fun c => decide (c.uploadId = u)) :=
      List.mem_filter.mpr ⟨hc, decide_eq_true hcp.1⟩
    exact h c hmem (decide_eq_true hcp.2)
  · intro h c hc hcr
    rcases List.mem_filter.mp hc with ⟨hcm, hcu⟩
    exact h c hcm
      (decide_eq_true ⟨of_decide_eq_true hcu, of_decide_eq_true hcr⟩)

theorem pairCount_append (l1 l2 : List Conversion) (u : Nat) (r : String) :
    pairCount (l1 ++ l2) u r = pairCount l1 u r + pairCount l2 u r := by
  unfold pairCount
  rw [List.filter_append, List.length_append]

theorem pairCount_hlsCreateStep (uploadId : Nat) (σ : RouteState) (res : String)
    (u : Nat) (r : String) (h : pairCount σ.convs u r ≤ 1) :
    pairCount (hlsCreateStep uploadId σ res).2.convs u r ≤ 1 := by
  unfold hlsCreateStep
  cases hfind : findExistingConversion σ.convs uploadId res with
  | some ec =>
    cases hst : ec.status with
    | ready => simpa [hst] using h
    | processing => simpa [hst] using h
    | waiting => simpa [hst] using h
    | failed =>
      simpa [hst, pairCount_updateConversionStatus] using h
  | none =>
    have hzero := (findExistingConversion_none_iff σ.convs uploadId res).mp hfind
    show pairCount
        (σ.convs ++ [⟨σ.nextConvId, uploadId, res, JobStatus.waiting, 0, none⟩]) u r ≤ 1
    rw [pairCount_append]
    by_cases hp : uploadId = u ∧ res = r
    · have hz : pairCount σ.convs u r = 0 := by rw [← hp.1, ← hp.2]; exact hzero
      rw [hz]
      have : pairCount [⟨σ.nextConvId, uploadId, res, JobStatus.waiting, 0, none⟩] u r ≤ 1 := by
        unfold pairCount
        simp only [List.filter_cons, List.filter_nil]
        split
        · simp
        · simp
      omega
    · have : pairCount [⟨σ.nextConvId, uploadId, res, JobStatus.waiting, 0, none⟩] u r = 0 := by
        unfold pairCount
        simp only [List.filter_cons, List.filter_nil]
        rw [if_neg]
        · rfl
        · simp only [decide_eq_true_eq]
          exact hp
      omega

theorem hlsCreateRoute_state (uploadId : Nat) (σ : RouteState) (rs : List String)
    (acc : List JobResult) :
    (rs.foldl
      (fun acc res =>
        let step := hlsCreateStep uploadId acc.2 res
        (acc.1 ++ [step.1], step.2))
      (acc, σ)).2 =
      rs.foldl (fun τ res => (hlsCreateStep uploadId τ res).2) σ := by
  induction rs generalizing acc σ with
  | nil => rfl
  | cons x t ih => exact ih _ _

/-- Claim C5: for a resolution whose (upload, resolution) pair already
has a job, the conversion-creation route returns that job's id and
status without creating a second job: a `waiting`/`processing` job leaves
the whole state untouched and is reported as is; a `ready` job is a
no-op reported as complete; a `failed` job is reset to `waiting` with
progress 0 and re-enqueued, its id unchanged.  Moreover a full request
never raises the number of jobs of any (upload, resolution) pair above
one. -/
theorem C5_duplicateGuard (uploadId : Nat) (σ : RouteState) (res : String) :
    (∀ ec, findExistingConversion σ.convs uploadId res = some ec →
      ((ec.status = JobStatus.waiting ∨ ec.status = JobStatus.processing) →
          hlsCreateStep uploadId σ res = (⟨ec.id, res, ec.status⟩, σ))
      ∧ (ec.status = JobStatus.ready →
          hlsCreateStep uploadId σ res = (⟨ec.id, res, JobStatus.ready⟩, σ))
      ∧ (ec.status = JobStatus.failed →
          hlsCreateStep uploadId σ res =
            (⟨ec.id, res, JobStatus.waiting⟩,
             { σ with convs := updateConversionStatus σ.convs ec.id JobStatus.waiting (some 0),
                      queue := σ.queue ++ [(ec.id, res)] })))
    ∧ ∀ u r, pairCount σ.convs u r ≤ 1 →
        ∀ resolutions : List String,
          pairCount (hlsCreateRoute uploadId σ resolutions).2.convs u r ≤ 1 := by
  constructor
  · intro ec hec
    refine ⟨?_, ?_, ?_⟩
    · rintro (hst | hst) <;>
        · unfold hlsCreateStep
          rw [hec]
          simp [hst]
    · intro hst
      unfold hlsCreateStep
      rw [hec]
      simp [hst]
    · intro hst
      unfold hlsCreateStep
      rw [hec]
      simp [hst]
  · intro u r h resolutions
    unfold hlsCreateRoute
    rw [hlsCreateRoute_state]
    induction resolutions generalizing σ with
    | nil => exact h
    | cons x t ih =>
      rw [List.foldl_cons]
      exact ih _ (pairCount_hlsCreateStep uploadId σ x u r h)

/-- Claim C5, witness: requesting 720p while its job is processing
returns that job and changes nothing. -/
theorem C5_duplicateGuard_witness :
    hlsCreateStep 1 ⟨[⟨3, 1, "720p", JobStatus.processing, 40, none⟩], 4, []⟩ "720p" =
      (⟨3, "720p", JobStatus.processing⟩,
       ⟨[⟨3, 1, "720p", JobStatus.processing, 40, none⟩], 4, []⟩) :=
  (((C5_duplicateGuard 1 ⟨[⟨3, 1, "720p", JobStatus.processing, 40, none⟩], 4, []⟩ "720p").1
      ⟨3, 1, "720p", JobStatus.processing, 40, none⟩ (by decide)).1 (Or.inr rfl))

/-!  Claim C7: the per-(asset, resolution) segment-index invariant.  -/

theorem uploadSegments_spec (st : ChunkStore) (u : Nat) (r : String) (K : Nat) :
    (uploadSegments st u r K).chunks =
      st.chunks ++ (List.range K).map (fun i => ⟨st.nextId + i, u, i, r⟩)
    ∧ (uploadSegments st u r K).nextId = st.nextId + K := by
  induction K with
  | zero => simp [uploadSegments]
  | succ n ih =>
    have hfold : uploadSegments st u r (n + 1) =
        createChunk (uploadSegments st u r n) u n r := by
      unfold uploadSegments
      rw [List.range_succ, List.foldl_append]
      rfl
    obtain ⟨ih1, ih2⟩ := ih
    constructor
    · rw [hfold]
      unfold createChunk
      rw [ih1, ih2, List.range_succ, List.map_append, List.append_assoc]
      rfl
    · rw [hfold]
      unfold createChunk
      simp [ih2, Nat.add_assoc]

/-- Claim C7, counterexample.  A first conversion run for
(upload 1, 720p) is interrupted after creating the record with index 0
(its job then being marked failed), an operator retry re-runs the loop
from index 0 and finishes with 2 segments.  In the resulting reachable
store the pair's stored indices are 0, 0, 1 — a duplicate index and a
double gap — so the claimed contiguity invariant does not hold in every
reachable state. -/
theorem C7_counterexample :
    ¬ contiguousSegments
        (runSegmentOps [SegmentOp.interrupted 1 "720p" 1, SegmentOp.finished 1 "720p" 2])
        1 "720p" := by
  decide

/-- Claim C7, amended: segment records are append-only (no operation of
the storage layer mutates an existing record), and a single conversion
run over a store with no prior records for its (upload, resolution) pair
does create exactly the contiguous indices `0..K-1` in ascending order;
the invariant is broken only by re-running a conversion (operator retry
of a failed job) whose earlier run had already created records for the
same pair. -/
theorem C7_amended (st : ChunkStore) (u : Nat) (r : String) (K : Nat)
    (hfresh : getChunksByUploadId st u (some r) = []) :
    contiguousSegments (uploadSegments st u r K) u r
    ∧ ∀ op, ((applySegmentOp st op).chunks).take st.chunks.length = st.chunks := by
  constructor
  · have hold : (st.chunks.filter (fun c => c.uploadId = u)).filter
        (fun c => c.resolution = r) = [] := by
      have hperm := List.perm_insertionSort segIndexLe
        ((st.chunks.filter (fun c => c.uploadId = u)).filter (fun c => c.resolution = r))
      have : getChunksByUploadId st u (some r) =
          List.insertionSort segIndexLe
            ((st.chunks.filter (fun c => c.uploadId = u)).filter (fun c => c.resolution = r)) := rfl
      rw [this] at hfresh
      rw [hfresh] at hperm
      exact hperm.symm.eq_nil
    have hchunks := (uploadSegments_spec st u r K).1
    have hstep : getChunksByUploadId (uploadSegments st u r K) u (some r) =
        (List.range K).map (fun i => (⟨st.nextId + i, u, i, r⟩ : SegmentRec)) := by
      have hfilter : ((uploadSegments st u r K).chunks.filter
            (fun c => c.uploadId = u)).filter (fun c => c.resolution = r) =
          (List.range K).map (fun i => (⟨st.nextId + i, u, i, r⟩ : SegmentRec)) := by
        rw [hchunks, List.filter_append, List.filter_append, hold]
        have h1 : ((List.range K).map (fun i => (⟨st.nextId + i, u, i, r⟩ : SegmentRec))).filter
            (fun c => c.uploadId = u) =
            (List.range K).map (fun i => (⟨st.nextId + i, u, i, r⟩ : SegmentRec)) := by
          rw [List.filter_eq_self]
          intro c hc
          rcases List.mem_map.mp hc with ⟨i, _, hi⟩
          rw [← hi]
          simp
        have h2 : ((List.range K).map (fun i => (⟨st.nextId + i, u, i, r⟩ : SegmentRec))).filter
            (fun c => c.resolution = r) =
            (List.range K).map (fun i => (⟨st.nextId + i, u, i, r⟩ : SegmentRec)) := by
          rw [List.filter_eq_self]
          intro c hc
          rcases List.mem_map.mp hc with ⟨i, _, hi⟩
          rw [← hi]
          simp
        rw [h1, h2]
        rfl
      have hsorted : List.Sorted segIndexLe
          ((List.range K).map (fun i => (⟨st.nextId + i, u, i, r⟩ : SegmentRec))) := by
        refine List.Pairwise.map _ ?_ (List.pairwise_le_range K)
        intro a b hab
        exact hab
      have : getChunksByUploadId (uploadSegments st u r K) u (some r) =
          List.insertionSort segIndexLe
            (((uploadSegments st u r K).chunks.filter (fun c => c.uploadId = u)).filter
              (fun c => c.resolution = r)) := rfl
      rw [this, hfilter, hsorted.insertionSort_eq]
    unfold contiguousSegments
    rw [hstep, List.map_map, List.length_map, List.length_range]
    show List.map (fun i => i) (List.range K) = List.range K
    simp
  · intro op
    cases op with
    | finished u' r' k =>
      have := (uploadSegments_spec st u' r' k).1
      unfold applySegmentOp
      rw [this, List.take_left]
    | interrupted u' r' k =>
      have := (uploadSegments_spec st u' r' k).1
      unfold applySegmentOp
      rw [this, List.take_left]

/-- Claim C7, amended, witness: a single finished run of 2 segments on an
empty store yields contiguous indices for its pair. -/
theorem C7_amended_witness :
    contiguousSegments (uploadSegments ⟨[], 1⟩ 1 "720p" 2) 1 "720p" :=
  (C7_amended ⟨[], 1⟩ 1 "720p" 2 (by decide)).1

/-!  Claim C10: the master playlist's resolution entries.  -/

theorem jsSetDedup_foldl_spec (l : List String) (acc : List String) (hacc : acc.Nodup) :
    (l.foldl (fun acc r => if r ∈ acc then acc else acc ++ [r]) acc).Nodup
    ∧ ∀ r, r ∈ l.foldl (fun acc r => if r ∈ acc then acc else acc ++ [r]) acc ↔
        (r ∈ acc ∨ r ∈ l) := by
  induction l generalizing acc with
  | nil => exact ⟨hacc, fun r => by simp⟩
  | cons x t ih =>
    by_cases hx : x ∈ acc
    · have step : (x :: t).foldl (fun acc r => if r ∈ acc then acc else acc ++ [r]) acc =
          t.foldl (fun acc r => if r ∈ acc then acc else acc ++ [r]) acc := by
        rw [List.foldl_cons, if_pos hx]
      obtain ⟨ihn, ihm⟩ := ih acc hacc
      rw [step]
      refine ⟨ihn, fun r => ?_⟩
      rw [ihm r]
      constructor
      · rintro (h | h)
        · exact Or.inl h
        · exact Or.inr (List.mem_cons_of_mem x h)
      · rintro (h | h)
        · exact Or.inl h
        · rcases List.mem_cons.mp h with rfl | h
          · exact Or.inl hx
          · exact Or.inr h
    · have step : (x :: t).foldl (fun acc r => if r ∈ acc then acc else acc ++ [r]) acc =
          t.foldl (fun acc r => if r ∈ acc then acc else acc ++ [r]) (acc ++ [x]) := by
        rw [List.foldl_cons, if_neg hx]
      have hacc' : (acc ++ [x]).Nodup := by
        simp [List.nodup_append, hacc, hx]
      obtain ⟨ihn, ihm⟩ := ih (acc ++ [x]) hacc'
      rw [step]
      refine ⟨ihn, fun r => ?_⟩
      rw [ihm r]
      constructor
      · rintro (h | h)
        · rcases List.mem_append.mp h with h | h
          · exact Or.inl h
          · simp only [List.mem_singleton] at h
            exact Or.inr (h ▸ List.mem_cons_self x t)
        · exact Or.inr (List.mem_cons_of_mem x h)
      · rintro (h | h)
        · exact Or.inl (List.mem_append.mpr (Or.inl h))
        · rcases List.mem_cons.mp h with rfl | h
          · exact Or.inl (List.mem_append.mpr (Or.inr (List.mem_singleton.mpr rfl)))
          · exact Or.inr h

theorem map_fst_filterMap_settings (l : List String) :
    (l.filterMap (fun r => (settingsFor r).map (fun s => (r, s)))).map Prod.fst =
      l.filter (fun r => (settingsFor r).isSome) := by
  induction l with
  | nil => rfl
  | cons x t ih =>
    cases hx : settingsFor x with
    | none => simp [List.filterMap_cons, List.filter_cons, hx, ih]
    | some s => simp [List.filterMap_cons, List.filter_cons, hx, ih]

/-- Claim C10: the master playlist for an upload has one entry per
*distinct* resolution label among the upload's stored segment records
that has an entry in the fixed settings table (`1080p`, `720p`, `360p`):
its label list is duplicate-free, a pair (label, settings) appears
exactly when the settings table maps that label to those settings and
some stored segment of the upload carries the label, and any segment
carrying an unknown label is silently omitted (never an error — the
builder is total). -/
theorem C10_masterPlaylist (st : ChunkStore) (uploadId : Nat) :
    ((generateMasterPlaylist st uploadId).map Prod.fst).Nodup
    ∧ (∀ r s, (r, s) ∈ generateMasterPlaylist st uploadId ↔
        (settingsFor r = some s ∧
          r ∈ (getChunksByUploadId st uploadId none).map (fun c => c.resolution)))
    ∧ ∀ r, settingsFor r = none →
        ∀ s, (r, s) ∉ generateMasterPlaylist st uploadId := by
  obtain ⟨hnodup, hmem⟩ := jsSetDedup_foldl_spec
    ((getChunksByUploadId st uploadId none).map (fun c => c.resolution)) [] List.nodup_nil
  have hmem' : ∀ r, r ∈ jsSetDedup ((getChunksByUploadId st uploadId none).map
      (fun c => c.resolution)) ↔
      r ∈ (getChunksByUploadId st uploadId none).map (fun c => c.resolution) := by
    intro r
    rw [show jsSetDedup ((getChunksByUploadId st uploadId none).map (fun c => c.resolution)) =
        ((getChunksByUploadId st uploadId none).map (fun c => c.resolution)).foldl
          (fun acc r => if r ∈ acc then acc else acc ++ [r]) [] from rfl, hmem r]
    simp
  have hiff : ∀ r s, (r, s) ∈ generateMasterPlaylist st uploadId ↔
      (settingsFor r = some s ∧
        r ∈ (getChunksByUploadId st uploadId none).map (fun c => c.resolution)) := by
    intro r s
    unfold generateMasterPlaylist
    rw [List.mem_filterMap]
    constructor
    · rintro ⟨a, ha, hg⟩
      cases hsa : settingsFor a with
      | none => rw [hsa] at hg; exact absurd hg (by simp)
      | some s' =>
        rw [hsa] at hg
        simp only [Option.map_some'] at hg
        injection hg with hg
        have h1 : a = r := congrArg Prod.fst hg
        have h2 : s' = s := congrArg Prod.snd hg
        subst h1; subst h2
        exact ⟨hsa, (hmem' a).mp ha⟩
    · rintro ⟨hs, hr⟩
      exact ⟨r, (hmem' r).mpr hr, by rw [hs]; rfl⟩
  refine ⟨?_, hiff, ?_⟩
  · unfold generateMasterPlaylist
    rw [map_fst_filterMap_settings]
    exact hnodup.filter _
  · intro r hr s hmem
    rcases (hiff r s).mp hmem with ⟨hs, _⟩
    rw [hr] at hs
    exact absurd hs (by simp)

/-- Claim C10, witness: in a store holding segments labelled `720p` and
`999p` for upload 1, the master playlist contains the `720p` entry, and
no entry for the unknown label `999p`. -/
theorem C10_masterPlaylist_witness :
    ("720p", (⟨1280, 720, 2500, 128⟩ : ResolutionSetting)) ∈
      generateMasterPlaylist ⟨[⟨1, 1, 0, "720p"⟩, ⟨2, 1, 0, "999p"⟩], 3⟩ 1 :=
  ((C10_masterPlaylist ⟨[⟨1, 1, 0, "720p"⟩, ⟨2, 1, 0, "999p"⟩], 3⟩ 1).2.1
      "720p" ⟨1280, 720, 2500, 128⟩).mpr ⟨by decide, by decide⟩

/-!  Digit-sequence lemmas for the chunk file names.  -/

theorem digitsVal_append_singleton (xs : List Nat) (d : Nat) :
    digitsVal (xs ++ [d]) = 10 * digitsVal xs + d := by
  induction xs with
  | nil => simp [digitsVal]
  | cons x t ih =>
    simp only [List.cons_append, digitsVal, List.length_append, List.length_singleton,
      List.append_eq, ih]
    ring

theorem natDigitsAux_spec (fuel : Nat) : ∀ n, n < 10 ^ fuel →
    (∀ d ∈ natDigitsAux fuel n, d < 10)
    ∧ digitsVal (natDigitsAux fuel n) = n
    ∧ (natDigitsAux fuel n).length ≤ fuel := by
  induction fuel with
  | zero =>
    intro n hn
    interval_cases n
    exact ⟨by simp [natDigitsAux], by simp [natDigitsAux, digitsVal], by simp [natDigitsAux]⟩
  | succ f ih =>
    intro n hn
    by_cases hsmall : n < 10
    · refine ⟨?_, ?_, ?_⟩
      · intro d hd
        simp only [natDigitsAux, if_pos hsmall, List.mem_singleton] at hd
        omega
      · simp [natDigitsAux, if_pos hsmall, digitsVal]
      · simp [natDigitsAux, if_pos hsmall]
    · have hdiv : n / 10 < 10 ^ f := by
        rw [Nat.div_lt_iff_lt_mul (by norm_num)]
        calc n < 10 ^ (f + 1) := hn
          _ = 10 ^ f * 10 := by ring
      obtain ⟨ih1, ih2, ih3⟩ := ih (n / 10) hdiv
      have hunfold : natDigitsAux (f + 1) n = natDigitsAux f (n / 10) ++ [n % 10] := by
        simp [natDigitsAux, hsmall]
      refine ⟨?_, ?_, ?_⟩
      · intro d hd
        rw [hunfold] at hd
        rcases List.mem_append.mp hd with hd | hd
        · exact ih1 d hd
        · simp only [List.mem_singleton] at hd
          subst hd
          exact Nat.mod_lt n (by norm_num)
      · rw [hunfold, digitsVal_append_singleton, ih2]
        exact Nat.div_add_mod n 10
      · rw [hunfold, List.length_append]
        simp only [List.length_singleton]
        omega

theorem natDigitsAux_congr (f1 : Nat) : ∀ f2 n, n < 10 ^ (f1 + 1) → n < 10 ^ (f2 + 1) →
    natDigitsAux (f1 + 1) n = natDigitsAux (f2 + 1) n := by
  induction f1 with
  | zero =>
    intro f2 n h1 _h2
    have hsmall : n < 10 := by simpa using h1
    simp [natDigitsAux, hsmall]
  | succ g ih =>
    intro f2 n h1 h2
    by_cases hsmall : n < 10
    · simp [natDigitsAux, hsmall]
    · cases f2 with
      | zero => simp at h2; omega
      | succ h =>
        have hd1 : n / 10 < 10 ^ (g + 1) := by
          rw [Nat.div_lt_iff_lt_mul (by norm_num)]
          calc n < 10 ^ (g + 2) := h1
            _ = 10 ^ (g + 1) * 10 := by ring
        have hd2 : n / 10 < 10 ^ (h + 1) := by
          rw [Nat.div_lt_iff_lt_mul (by norm_num)]
          calc n < 10 ^ (h + 2) := h2
            _ = 10 ^ (h + 1) * 10 := by ring
        have : natDigitsAux (g + 1 + 1) n = natDigitsAux (g + 1) (n / 10) ++ [n % 10] := by
          simp [natDigitsAux, hsmall]
        rw [this, ih h (n / 10) hd1 hd2]
        simp [natDigitsAux, hsmall]

theorem natDigits_eq_aux (k n : Nat) (h : n < 10 ^ (k + 1)) :
    natDigits n = natDigitsAux (k + 1) n := by
  unfold natDigits
  have hself : n < 10 ^ (n + 1) :=
    lt_of_lt_of_le (Nat.lt_pow_self (by norm_num) n)
      (Nat.pow_le_pow_right (by norm_num) (Nat.le_succ n))
  exact natDigitsAux_congr n k n hself h

theorem natDigits_spec (n : Nat) :
    (∀ d ∈ natDigits n, d < 10) ∧ digitsVal (natDigits n) = n := by
  have hself : n < 10 ^ (n + 1) :=
    lt_of_lt_of_le (Nat.lt_pow_self (by norm_num) n)
      (Nat.pow_le_pow_right (by norm_num) (Nat.le_succ n))
  obtain ⟨h1, h2, _⟩ := natDigitsAux_spec (n + 1) n hself
  exact ⟨h1, h2⟩

theorem natDigits_length_le_five (n : Nat) (h : n ≤ 99999) :
    (natDigits n).length ≤ 5 := by
  have h5 : n < 10 ^ 5 := by omega
  rw [natDigits_eq_aux 4 n (by omega)]
  exact (natDigitsAux_spec 5 n h5).2.2

theorem digitsVal_replicate_zero_append (k : Nat) (ds : List Nat) :
    digitsVal (List.replicate k 0 ++ ds) = digitsVal ds := by
  induction k with
  | zero => simp
  | succ m ih =>
    rw [List.replicate_succ, List.cons_append]
    simp only [digitsVal]
    rw [ih]
    ring

theorem digitsVal_pad5 (n : Nat) : digitsVal (pad5 n) = n := by
  unfold pad5
  rw [digitsVal_replicate_zero_append]
  exact (natDigits_spec n).2

theorem pad5_inj {m n : Nat} (h : pad5 m = pad5 n) : m = n := by
  have := digitsVal_pad5 m
  rw [h, digitsVal_pad5] at this
  omega

theorem pad5_digits_lt (n : Nat) : ∀ d ∈ pad5 n, d < 10 := by
  intro d hd
  unfold pad5 at hd
  rcases List.mem_append.mp hd with hd | hd
  · have := List.eq_of_mem_replicate hd
    omega
  · exact (natDigits_spec n).1 d hd

theorem pad5_length (n : Nat) (h : n ≤ 99999) : (pad5 n).length = 5 := by
  unfold pad5
  rw [List.length_append, List.length_replicate]
  have := natDigits_length_le_five n h
  omega

theorem digitsVal_lt (ds : List Nat) (h : ∀ d ∈ ds, d < 10) :
    digitsVal ds < 10 ^ ds.length := by
  induction ds with
  | nil => simp [digitsVal]
  | cons d t ih =>
    have hd : d < 10 := h d (List.mem_cons_self d t)
    have ht := ih (fun x hx => h x (List.mem_cons_of_mem d hx))
    simp only [digitsVal, List.length_cons]
    calc d * 10 ^ t.length + digitsVal t
        < d * 10 ^ t.length + 10 ^ t.length := by omega
      _ = (d + 1) * 10 ^ t.length := by ring
      _ ≤ 10 * 10 ^ t.length := by
          have : d + 1 ≤ 10 := hd
          exact Nat.mul_le_mul_right _ this
      _ = 10 ^ (t.length + 1) := by ring

theorem lexLe_iff_digitsVal_le : ∀ a b : List Nat, a.length = b.length →
    (∀ d ∈ a, d < 10) → (∀ d ∈ b, d < 10) →
    (lexLe a b = true ↔ digitsVal a ≤ digitsVal b) := by
  intro a
  induction a with
  | nil =>
    intro b hlen _ _
    have hb0 : b.length = 0 := by simpa using hlen.symm
    have : b = [] := List.length_eq_zero.mp hb0
    subst this
    simp [lexLe]
  | cons x xs ih =>
    intro b hlen ha hb
    cases b with
    | nil => simp at hlen
    | cons y ys =>
      have hlen' : xs.length = ys.length := by simpa using hlen
      have hxd : x < 10 := ha x (List.mem_cons_self x xs)
      have hyd : y < 10 := hb y (List.mem_cons_self y ys)
      have hxs := fun d hd => ha d (List.mem_cons_of_mem x hd)
      have hys := fun d hd => hb d (List.mem_cons_of_mem y hd)
      have hvx := digitsVal_lt xs hxs
      have hvy := digitsVal_lt ys hys
      simp only [digitsVal, hlen']
      rcases Nat.lt_trichotomy x y with hxy | hxy | hxy
      · have hval : x * 10 ^ ys.length + digitsVal xs < y * 10 ^ ys.length + digitsVal ys := by
          have h1 : x * 10 ^ ys.length + digitsVal xs < (x + 1) * 10 ^ ys.length := by
            rw [hlen'] at hvx
            calc x * 10 ^ ys.length + digitsVal xs < x * 10 ^ ys.length + 10 ^ ys.length := by
                  omega
              _ = (x + 1) * 10 ^ ys.length := by ring
          have h2 : (x + 1) * 10 ^ ys.length ≤ y * 10 ^ ys.length :=
            Nat.mul_le_mul_right _ hxy
          omega
        simp only [lexLe, if_pos hxy]
        constructor
        · intro _; omega
        · intro _; trivial
      · subst hxy
        simp only [lexLe, Nat.lt_irrefl, if_false]
        rw [ih ys hlen' hxs hys]
        omega
      · have hval : y * 10 ^ ys.length + digitsVal ys < x * 10 ^ ys.length + digitsVal xs := by
          have h1 : y * 10 ^ ys.length + digitsVal ys < (y + 1) * 10 ^ ys.length := by
            calc y * 10 ^ ys.length + digitsVal ys < y * 10 ^ ys.length + 10 ^ ys.length := by
                  omega
              _ = (y + 1) * 10 ^ ys.length := by ring
          have h2 : (y + 1) * 10 ^ ys.length ≤ x * 10 ^ ys.length :=
            Nat.mul_le_mul_right _ hxy
          omega
        simp only [lexLe, if_neg (Nat.lt_asymm hxy), if_pos hxy]
        constructor
        · intro h; exact absurd h (by simp)
        · intro h; exact absurd h (by omega)

theorem pad5_nameLe (m n : Nat) (hmn : m ≤ n) (hn : n ≤ 99999) :
    nameLe (pad5 m) (pad5 n) := by
  unfold nameLe
  rw [lexLe_iff_digitsVal_le (pad5 m) (pad5 n)
      (by rw [pad5_length m (by omega), pad5_length n hn])
      (pad5_digits_lt m) (pad5_digits_lt n)]
  rw [digitsVal_pad5, digitsVal_pad5]
  exact hmn

theorem pad5_range_sorted (N : Nat) (hN : N ≤ 100000) :
    List.Pairwise nameLe ((List.range N).map pad5) := by
  rw [List.pairwise_map]
  refine List.Pairwise.imp_of_mem ?_ (List.pairwise_lt_range N)
  intro i j hi hj hij
  have hjN : j < N := List.mem_range.mp hj
  exact pad5_nameLe i j (Nat.le_of_lt hij) (by omega)

/-!  Scratch-directory lemmas.  -/

theorem find?_overwrite_other (s : Scratch) (nm nm' : List Nat) (b : Bytes) (hq : nm' ≠ nm) :
    (s.map (fun e => if e.1 = nm then (nm, b) else e)).find? (fun e => decide (e.1 = nm')) =
      s.find? (fun e => decide (e.1 = nm')) := by
  induction s with
  | nil => rfl
  | cons e rest ih =>
    by_cases he : e.1 = nm
    · have h1 : ¬ ((nm, b).1 = nm') := fun hcon => hq (hcon.symm)
      have h2 : ¬ (e.1 = nm') := by rw [he]; exact fun hcon => hq hcon.symm
      simp only [List.map_cons, if_pos he, List.find?_cons]
      rw [decide_eq_false h1, decide_eq_false h2]
      exact ih
    · simp only [List.map_cons, if_neg he, List.find?_cons]
      cases hde : decide (e.1 = nm') with
      | true => rfl
      | false => exact ih

theorem find?_overwrite_self (s : Scratch) (nm : List Nat) (b : Bytes)
    (hany : s.any (fun e => decide (e.1 = nm)) = true) :
    (s.map (fun e => if e.1 = nm then (nm, b) else e)).find? (fun e => decide (e.1 = nm)) =
      some (nm, b) := by
  induction s with
  | nil => simp at hany
  | cons e rest ih =>
    by_cases he : e.1 = nm
    · simp only [List.map_cons, if_pos he, List.find?_cons]
      simp
    · have hrest : rest.any (fun e => decide (e.1 = nm)) = true := by
        rcases List.any_eq_true.mp hany with ⟨x, hx, hx2⟩
        rcases List.mem_cons.mp hx with hxe | hxr
        · subst hxe; exact absurd (of_decide_eq_true hx2) he
        · exact List.any_eq_true.mpr ⟨x, hxr, hx2⟩
      simp only [List.map_cons, if_neg he, List.find?_cons]
      rw [decide_eq_false he]
      exact ih hrest

theorem readScratchFile_writeScratchFile (s : Scratch) (nm nm' : List Nat) (b : Bytes) :
    readScratchFile (writeScratchFile s nm b) nm' =
      if nm' = nm then some b else readScratchFile s nm' := by
  unfold writeScratchFile readScratchFile
  by_cases hany : s.any (fun e => decide (e.1 = nm)) = true
  · rw [if_pos hany]
    by_cases hq : nm' = nm
    · subst hq
      rw [if_pos rfl, find?_overwrite_self s nm' b hany]
      rfl
    · rw [if_neg hq, find?_overwrite_other s nm nm' b hq]
  · rw [if_neg hany]
    have hnone : s.find? (fun e => decide (e.1 = nm)) = none := by
      rw [List.find?_eq_none]
      intro x hx hmatch
      exact hany (List.any_eq_true.mpr ⟨x, hx, hmatch⟩)
    by_cases hq : nm' = nm
    · subst hq
      rw [if_pos rfl, List.find?_append, hnone]
      simp
    · rw [if_neg hq, List.find?_append]
      cases hfs : s.find? (fun e => decide (e.1 = nm')) with
      | some e => rfl
      | none =>
        have hone : ([(nm, b)] : Scratch).find? (fun e => decide (e.1 = nm')) = none := by
          simp only [List.find?_cons, List.find?_nil]
          rw [decide_eq_false (fun hcon => hq hcon.symm)]
        simp [hone]

theorem keys_overwrite (s : Scratch) (nm : List Nat) (b : Bytes) :
    (s.map (fun e => if e.1 = nm then (nm, b) else e)).map Prod.fst = s.map Prod.fst := by
  rw [List.map_map]
  refine List.map_congr_left ?_
  intro e _
  by_cases hme : e.1 = nm
  · simp [Function.comp_apply, hme]
  · simp [Function.comp_apply, hme]

theorem keys_writeScratchFile_mem (s : Scratch) (nm nm' : List Nat) (b : Bytes) :
    nm' ∈ (writeScratchFile s nm b).map Prod.fst ↔
      nm' ∈ s.map Prod.fst ∨ nm' = nm := by
  unfold writeScratchFile
  by_cases hany : s.any (fun e => decide (e.1 = nm)) = true
  · rw [if_pos hany, keys_overwrite]
    constructor
    · exact Or.inl
    · rintro (h | h)
      · exact h
      · subst h
        rcases List.any_eq_true.mp hany with ⟨e, he, he2⟩
        exact List.mem_map.mpr ⟨e, he, of_decide_eq_true he2⟩
  · rw [if_neg hany, List.map_append]
    simp

theorem keys_writeScratchFile_nodup (s : Scratch) (nm : List Nat) (b : Bytes)
    (h : (s.map Prod.fst).Nodup) :
    ((writeScratchFile s nm b).map Prod.fst).Nodup := by
  unfold writeScratchFile
  by_cases hany : s.any (fun e => decide (e.1 = nm)) = true
  · rw [if_pos hany, keys_overwrite]
    exact h
  · rw [if_neg hany, List.map_append]
    have hnm : nm ∉ s.map Prod.fst := by
      intro hmem
      rcases List.mem_map.mp hmem with ⟨e, he, hfe⟩
      exact hany (List.any_eq_true.mpr ⟨e, he, decide_eq_true hfe⟩)
    simp [List.nodup_append, h, hnm]

theorem readScratchFile_none_iff (s : Scratch) (nm : List Nat) :
    readScratchFile s nm = none ↔ nm ∉ s.map Prod.fst := by
  unfold readScratchFile
  rw [Option.map_eq_none', List.find?_eq_none]
  constructor
  · intro h hmem
    rcases List.mem_map.mp hmem with ⟨e, he, hfe⟩
    exact h e he (decide_eq_true hfe)
  · intro h e he hmatch
    exact h (List.mem_map.mpr ⟨e, he, of_decide_eq_true hmatch⟩)

theorem scratch_fold_read (events : List (Nat × Bytes)) (c : Nat → Bytes)
    (hev : ∀ p ∈ events, p.2 = c p.1) :
    ∀ (s0 : Scratch) (i : Nat),
      (readScratchFile s0 (pad5 i) = some (c i) ∨ i ∈ events.map Prod.fst) →
      readScratchFile (events.foldl (fun s p => handleUploadedChunk s p.1 p.2) s0)
        (pad5 i) = some (c i) := by
  induction events with
  | nil =>
    intro s0 i hbase
    rcases hbase with h | h
    · exact h
    · simp at h
  | cons p rest ih =>
    intro s0 i hbase
    rw [List.foldl_cons]
    have hev' : ∀ q ∈ rest, q.2 = c q.1 := fun q hq => hev q (List.mem_cons_of_mem p hq)
    have hp : p.2 = c p.1 := hev p (List.mem_cons_self p rest)
    refine ih hev' (handleUploadedChunk s0 p.1 p.2) i ?_
    by_cases hip : i = p.1
    · left
      unfold handleUploadedChunk
      rw [readScratchFile_writeScratchFile, if_pos (by rw [hip]), hp, hip]
    · have hnames : pad5 i ≠ pad5 p.1 := fun hcon => hip (pad5_inj hcon)
      rcases hbase with h | h
      · left
        unfold handleUploadedChunk
        rw [readScratchFile_writeScratchFile, if_neg hnames]
        exact h
      · rcases List.mem_map.mp h with ⟨q, hq, hqi⟩
        rcases List.mem_cons.mp hq with hqp | hqr
        · rw [hqp] at hqi
          exact absurd hqi.symm hip
        · right
          exact List.mem_map.mpr ⟨q, hqr, hqi⟩

theorem keys_fold_superset (events : List (Nat × Bytes)) :
    ∀ (s0 : Scratch) (nm : List Nat), nm ∈ s0.map Prod.fst →
      nm ∈ (events.foldl (fun s p => handleUploadedChunk s p.1 p.2) s0).map Prod.fst := by
  induction events with
  | nil => intro s0 nm h; exact h
  | cons p rest ih =>
    intro s0 nm h
    rw [List.foldl_cons]
    exact ih _ nm ((keys_writeScratchFile_mem s0 (pad5 p.1) nm p.2).mpr (Or.inl h))

theorem keys_fold_mem (events : List (Nat × Bytes)) :
    ∀ (s0 : Scratch) (i : Nat), i ∈ events.map Prod.fst →
      pad5 i ∈ (events.foldl (fun s p => handleUploadedChunk s p.1 p.2) s0).map Prod.fst := by
  induction events with
  | nil => intro s0 i h; simp at h
  | cons p rest ih =>
    intro s0 i h
    rw [List.foldl_cons]
    rcases List.mem_map.mp h with ⟨q, hq, hqi⟩
    rcases List.mem_cons.mp hq with hqp | hqr
    · subst hqp
      refine keys_fold_superset rest _ _ ?_
      rw [← hqi]
      exact (keys_writeScratchFile_mem s0 (pad5 q.1) (pad5 q.1) q.2).mpr (Or.inr rfl)
    · exact ih _ i (List.mem_map.mpr ⟨q, hqr, hqi⟩)

theorem keys_fold_nodup (events : List (Nat × Bytes)) :
    ∀ s0 : Scratch, (s0.map Prod.fst).Nodup →
      ((events.foldl (fun s p => handleUploadedChunk s p.1 p.2) s0).map Prod.fst).Nodup := by
  induction events with
  | nil => intro s0 h; exact h
  | cons p rest ih =>
    intro s0 h
    rw [List.foldl_cons]
    exact ih _ (keys_writeScratchFile_nodup s0 (pad5 p.1) p.2 h)

theorem keys_fold_subset (events : List (Nat × Bytes)) :
    ∀ (s0 : Scratch) (nm : List Nat),
      nm ∈ (events.foldl (fun s p => handleUploadedChunk s p.1 p.2) s0).map Prod.fst →
      nm ∈ s0.map Prod.fst ∨ ∃ p ∈ events, nm = pad5 p.1 := by
  induction events with
  | nil => intro s0 nm h; exact Or.inl h
  | cons p rest ih =>
    intro s0 nm h
    rw [List.foldl_cons] at h
    rcases ih _ nm h with h' | ⟨q, hq, hnm⟩
    · rcases (keys_writeScratchFile_mem s0 (pad5 p.1) nm p.2).mp h' with h'' | h''
      · exact Or.inl h''
      · exact Or.inr ⟨p, List.mem_cons_self p rest, h''⟩
    · exact Or.inr ⟨q, List.mem_cons_of_mem p hq, hnm⟩

theorem scratch_fold_length (events : List (Nat × Bytes)) (N : Nat)
    (hidx : ∀ p ∈ events, p.1 < N)
    (hcover : ∀ i < N, i ∈ events.map Prod.fst) :
    (events.foldl (fun s p => handleUploadedChunk s p.1 p.2) []).length = N := by
  have hnodup : ((events.foldl (fun s p => handleUploadedChunk s p.1 p.2)
      ([] : Scratch)).map Prod.fst).Nodup := keys_fold_nodup events [] List.nodup_nil
  have hsub : ((events.foldl (fun s p => handleUploadedChunk s p.1 p.2)
      ([] : Scratch)).map Prod.fst) ⊆ (List.range N).map pad5 := by
    intro nm hnm
    rcases keys_fold_subset events [] nm hnm with h | ⟨p, hp, hnm'⟩
    · simp at h
    · exact List.mem_map.mpr ⟨p.1, List.mem_range.mpr (hidx p hp), hnm'.symm⟩
  have hsup : (List.range N).map pad5 ⊆ ((events.foldl
      (fun s p => handleUploadedChunk s p.1 p.2) ([] : Scratch)).map Prod.fst) := by
    intro nm hnm
    rcases List.mem_map.mp hnm with ⟨i, hi, hnm'⟩
    rw [← hnm']
    exact keys_fold_mem events [] i (hcover i (List.mem_range.mp hi))
  have hnodup2 : ((List.range N).map pad5).Nodup :=
    List.Nodup.map (fun a b h => pad5_inj h) (List.nodup_range N)
  have hle1 := List.Subperm.length_le (List.Nodup.subperm hnodup hsub)
  have hle2 := List.Subperm.length_le (List.Nodup.subperm hnodup2 hsup)
  rw [List.length_map, List.length_map, List.length_range] at hle1 hle2
  omega

/-!  Chunk reading and the split-join round trip.  -/

theorem readChunkFiles_eq_of_forall (dir : List Nat → Option Bytes) (f : List Nat → Bytes) :
    ∀ paths : List (List Nat), (∀ nm ∈ paths, dir nm = some (f nm)) →
      readChunkFiles dir paths = some (paths.map f) := by
  intro paths
  induction paths with
  | nil => intro _; rfl
  | cons nm rest ih =>
    intro h
    unfold readChunkFiles
    rw [h nm (List.mem_cons_self nm rest),
      ih (fun q hq => h q (List.mem_cons_of_mem nm hq))]
    rfl

theorem readChunkFiles_map_eq (dir : List Nat → Option Bytes) (g : Nat → List Nat)
    (h : Nat → Bytes) :
    ∀ idxs : List Nat, (∀ i ∈ idxs, dir (g i) = some (h i)) →
      readChunkFiles dir (idxs.map g) = some (idxs.map h) := by
  intro idxs
  induction idxs with
  | nil => intro _; rfl
  | cons i rest ih =>
    intro hall
    rw [List.map_cons, List.map_cons]
    unfold readChunkFiles
    rw [hall i (List.mem_cons_self i rest),
      ih (fun j hj => hall j (List.mem_cons_of_mem i hj))]
    rfl

theorem readChunkFiles_none_iff (dir : List Nat → Option Bytes) :
    ∀ paths : List (List Nat),
      (readChunkFiles dir paths = none ↔ ∃ nm ∈ paths, dir nm = none) := by
  intro paths
  induction paths with
  | nil => simp [readChunkFiles]
  | cons nm rest ih =>
    unfold readChunkFiles
    cases hd : dir nm with
    | none =>
      simp only [hd]
      constructor
      · intro _
        exact ⟨nm, List.mem_cons_self nm rest, hd⟩
      · intro _
        trivial
    | some b =>
      cases hr : readChunkFiles dir rest with
      | none =>
        rw [hr] at ih
        simp only [hd, hr, Option.map_none']
        constructor
        · intro _
          rcases ih.mp rfl with ⟨q, hq, hqn⟩
          exact ⟨q, List.mem_cons_of_mem nm hq, hqn⟩
        · intro _
          trivial
      | some bs =>
        rw [hr] at ih
        simp only [hd, hr, Option.map_some']
        constructor
        · intro hcon
          exact absurd hcon (by simp)
        · rintro ⟨q, hq, hqn⟩
          rcases List.mem_cons.mp hq with hq1 | hq2
          · rw [hq1] at hqn
            rw [hqn] at hd
            exact absurd hd (by simp)
          · rcases ih.mpr ⟨q, hq2, hqn⟩ with hcon
            exact absurd hcon (by simp)

theorem flatten_map_singleton {α β : Type} (f : α → β) : ∀ l : List α,
    (l.map (fun x => [f x])).flatten = l.map f := by
  intro l
  induction l with
  | nil => rfl
  | cons x t ih => simp [ih]

theorem numChunks_zero (c : Nat) (hc : 0 < c) : numChunks 0 c = 0 := by
  unfold numChunks
  rw [Nat.zero_add]
  exact Nat.div_eq_of_lt (by omega)

theorem numChunks_pos_eq (len c : Nat) (hc : 0 < c) (hlen : 0 < len) :
    numChunks len c = (len - 1) / c + 1 := by
  unfold numChunks
  rw [show len + c - 1 = (len - 1) + c by omega, Nat.add_div_right _ hc]

theorem numChunks_succ (len c : Nat) (hc : 0 < c) (hlen : 0 < len) :
    numChunks len c = numChunks (len - c) c + 1 := by
  by_cases hle : len ≤ c
  · have h0 : len - c = 0 := by omega
    rw [h0, numChunks_zero c hc, numChunks_pos_eq len c hc hlen,
      Nat.div_eq_of_lt (by omega)]
  · have hpos : 0 < len - c := by omega
    rw [numChunks_pos_eq len c hc hlen, numChunks_pos_eq (len - c) c hc hpos,
      show len - 1 = (len - c - 1) + c by omega, Nat.add_div_right _ hc]

theorem chunkFile_nil (csize : Nat) (hc : 0 < csize) : chunkFile [] csize = [] := by
  unfold chunkFile
  rw [List.length_nil, numChunks_zero csize hc]
  rfl

theorem chunkFile_cons (file : Bytes) (csize : Nat) (hc : 0 < csize) (hne : file ≠ []) :
    chunkFile file csize = file.take csize :: chunkFile (file.drop csize) csize := by
  have hlen : 0 < file.length := List.length_pos.mpr hne
  unfold chunkFile
  rw [List.length_drop, numChunks_succ file.length csize hc hlen, List.range_succ_eq_map,
    List.map_cons, List.map_map]
  congr 1
  · simp [chunkOf]
  · refine List.map_congr_left ?_
    intro i _
    simp only [Function.comp_apply]
    unfold chunkOf
    rw [List.drop_drop, Nat.succ_mul, Nat.add_comm (i * csize) csize]

theorem flatten_chunkFile (csize : Nat) (hc : 0 < csize) :
    ∀ file : Bytes, (chunkFile file csize).flatten = file := by
  have main : ∀ n (file : Bytes), file.length ≤ n → (chunkFile file csize).flatten = file := by
    intro n
    induction n with
    | zero =>
      intro file h
      have : file = [] := List.length_eq_zero.mp (Nat.le_zero.mp h)
      subst this
      rw [chunkFile_nil csize hc]
      rfl
    | succ n ih =>
      intro file h
      by_cases hnil : file = []
      · subst hnil
        rw [chunkFile_nil csize hc]
        rfl
      · rw [chunkFile_cons file csize hc hnil, List.flatten_cons,
          ih (file.drop csize) (by rw [List.length_drop]; have := List.length_pos.mpr hnil; omega)]
        exact List.take_append_drop csize file
  intro file
  exact main file.length file (le_refl _)

theorem mem_of_getLast?_eq {α : Type} : ∀ (l : List α) (a : α), l.getLast? = some a → a ∈ l := by
  intro l
  induction l with
  | nil => intro a h; exact absurd h (by simp)
  | cons x t ih =>
    intro a h
    cases t with
    | nil =>
      have hx : some x = some a := h
      injection hx with hx
      exact List.mem_singleton.mpr hx.symm
    | cons y s =>
      rw [List.getLast?_cons_cons] at h
      exact List.mem_cons_of_mem x (ih a h)

theorem pairwise_getLast?_rel {α : Type} {r : α → α → Prop} :
    ∀ l : List α, List.Pairwise r l → ∀ a ∈ l, ∀ b, l.getLast? = some b → a = b ∨ r a b := by
  intro l
  induction l with
  | nil => intro _ a ha; exact absurd ha (by simp)
  | cons x t ih =>
    intro hp a ha b hb
    cases t with
    | nil =>
      have hxa : a = x := by simpa using ha
      have hxb : x = b := by
        have hx : some x = some b := hb
        injection hx
      exact Or.inl (hxa.trans hxb)
    | cons y s =>
      rw [List.getLast?_cons_cons] at hb
      rcases List.mem_cons.mp ha with hax | hat
      · subst hax
        right
        have hbmem : b ∈ y :: s := mem_of_getLast?_eq (y :: s) b hb
        exact (List.pairwise_cons.mp hp).1 b hbmem
      · exact ih (List.pairwise_cons.mp hp).2 a hat b hb

theorem chunkOf_fileBig (i : Nat) (hi : i < 100001) :
    chunkOf fileBig 1 i = [if i = 100000 then 1 else 0] := by
  unfold chunkOf fileBig
  rw [Nat.mul_one]
  by_cases h1 : i < 100000
  · rw [if_neg (by omega)]
    rw [List.drop_append_of_le_length (by rw [List.length_replicate]; omega),
      List.drop_replicate]
    rw [show (100000 : Nat) - i = (100000 - i - 1) + 1 by omega, List.replicate_succ,
      List.cons_append]
    rfl
  · have h2 : i = 100000 := by omega
    subst h2
    rw [if_pos rfl,
      List.drop_append_of_le_length (by rw [List.length_replicate]),
      List.drop_replicate]
    norm_num

/-!  Claim C3: the chunked-upload round trip.  -/

/-- Claim C3, amended: the round trip is the identity for every file of
at most 100000 chunks — for any chunk size, any arrival order and any
duplicate retries, completing the upload reproduces the original bytes;
the bound is forced by the chunk file naming, which zero-pads indices to
five digits and then sorts file *names*, so from index 100000 on the
lexicographic order of names diverges from the numeric order of indices
and the merge concatenates chunks out of order (see the
counterexample). -/
theorem C3_amended (file : Bytes) (csize : Nat) (hc : 0 < csize)
    (hN : numChunks file.length csize ≤ 100000)
    (events : List (Nat × Bytes))
    (hidx : ∀ p ∈ events, p.1 < numChunks file.length csize)
    (hcontent : ∀ p ∈ events, p.2 = chunkOf file csize p.1)
    (hcover : ∀ i < numChunks file.length csize, i ∈ events.map Prod.fst) :
    completeUpload (events.foldl (fun s p => handleUploadedChunk s p.1 p.2) []) =
      some file := by
  have hlen : (events.foldl (fun s p => handleUploadedChunk s p.1 p.2)
      ([] : Scratch)).length = numChunks file.length csize :=
    scratch_fold_length events (numChunks file.length csize) hidx hcover
  have hread : ∀ i < numChunks file.length csize,
      readScratchFile (events.foldl (fun s p => handleUploadedChunk s p.1 p.2) [])
        (pad5 i) = some (chunkOf file csize i) := by
    intro i hi
    exact scratch_fold_read events (chunkOf file csize) hcontent [] i
      (Or.inr (hcover i hi))
  unfold completeUpload combineUploadedChunks mergeChunks
  rw [hlen]
  rw [List.Sorted.insertionSort_eq (pad5_range_sorted (numChunks file.length csize) hN)]
  rw [readChunkFiles_map_eq _ pad5 (chunkOf file csize) (List.range (numChunks file.length csize))
      (fun i hi => hread i (List.mem_range.mp hi))]
  rw [Option.map_some']
  rw [show (List.range (numChunks file.length csize)).map (chunkOf file csize) =
      chunkFile file csize from rfl]
  rw [flatten_chunkFile csize hc file]

/-- Claim C3, amended, witness: a 5-byte file in 2-byte chunks, accepted
out of order with one duplicate retry, reassembles to the original. -/
theorem C3_amended_witness :
    completeUpload (([((1 : Nat), ([3, 4] : Bytes)), (0, [1, 2]), (2, [5]),
        (1, [3, 4])]).foldl (fun s p => handleUploadedChunk s p.1 p.2) []) =
      some [1, 2, 3, 4, 5] :=
  C3_amended [1, 2, 3, 4, 5] 2 (by decide) (by decide)
    [(1, [3, 4]), (0, [1, 2]), (2, [5]), (1, [3, 4])]
    (by decide) (by decide) (by decide)

/-- Claim C3, counterexample.  A file of 100001 one-byte chunks whose
last byte is its only nonzero one is split at chunk size 1 and every
chunk is accepted, in order and without gaps; completing the upload does
not reproduce the file.  The cause: `combineUploadedChunks` names chunk
100000 `chunk_100000` (six digits, `padStart(5, '0')` pads nothing) and
`mergeChunks` sorts names lexicographically, which places `chunk_100000`
between `chunk_10000` and `chunk_10001` instead of last. -/
theorem C3_counterexample :
    (0 : Nat) < 1
    ∧ numChunks fileBig.length 1 = 100001
    ∧ (∀ p ∈ eventsBig, p.1 < numChunks fileBig.length 1)
    ∧ (∀ p ∈ eventsBig, p.2 = chunkOf fileBig 1 p.1)
    ∧ (∀ i < numChunks fileBig.length 1, i ∈ eventsBig.map Prod.fst)
    ∧ completeUpload (eventsBig.foldl (fun s p => handleUploadedChunk s p.1 p.2) []) ≠
        some fileBig := by
  have hflen : fileBig.length = 100001 := by
    unfold fileBig
    rw [List.length_append, List.length_replicate]
    rfl
  have hN : numChunks fileBig.length 1 = 100001 := by
    rw [hflen]
    unfold numChunks
    norm_num
  have hidx : ∀ p ∈ eventsBig, p.1 < numChunks fileBig.length 1 := by
    intro p hp
    unfold eventsBig at hp
    rcases List.mem_map.mp hp with ⟨i, hi, hpi⟩
    rw [← hpi, hN]
    exact List.mem_range.mp hi
  have hcontent : ∀ p ∈ eventsBig, p.2 = chunkOf fileBig 1 p.1 := by
    intro p hp
    unfold eventsBig at hp
    rcases List.mem_map.mp hp with ⟨i, _, hpi⟩
    rw [← hpi]
  have hcover : ∀ i < numChunks fileBig.length 1, i ∈ eventsBig.map Prod.fst := by
    intro i hi
    rw [hN] at hi
    unfold eventsBig
    rw [List.map_map]
    exact List.mem_map.mpr ⟨i, List.mem_range.mpr hi, rfl⟩
  refine ⟨Nat.zero_lt_one, hN, hidx, hcontent, hcover, ?_⟩
  intro hcon
  have hsl : (eventsBig.foldl (fun s p => handleUploadedChunk s p.1 p.2)
      ([] : Scratch)).length = 100001 :=
    scratch_fold_length eventsBig 100001 (by rw [← hN]; exact hidx) (by rw [← hN]; exact hcover)
  have hread : ∀ i < 100001,
      readScratchFile (eventsBig.foldl (fun s p => handleUploadedChunk s p.1 p.2) [])
        (pad5 i) = some (chunkOf fileBig 1 i) := by
    intro i hi
    exact scratch_fold_read eventsBig (chunkOf fileBig 1) hcontent [] i
      (Or.inr (hcover i (by rw [hN]; exact hi)))
  have hdir : ∀ nm ∈ List.insertionSort nameLe
      ((List.range (eventsBig.foldl (fun s p => handleUploadedChunk s p.1 p.2)
        ([] : Scratch)).length).map pad5),
      readScratchFile (eventsBig.foldl (fun s p => handleUploadedChunk s p.1 p.2) []) nm =
        some [lastByteMark nm] := by
    intro nm hnm
    have hnm2 : nm ∈ (List.range (eventsBig.foldl
        (fun s p => handleUploadedChunk s p.1 p.2) ([] : Scratch)).length).map pad5 :=
      (List.perm_insertionSort nameLe _).mem_iff.mp hnm
    rcases List.mem_map.mp hnm2 with ⟨i, hi, hnmi⟩
    rw [hsl] at hi
    have hi' := List.mem_range.mp hi
    rw [← hnmi, hread i hi', chunkOf_fileBig i hi']
    unfold lastByteMark
    by_cases h : i = 100000
    · rw [if_pos h, if_pos (by rw [h])]
    · rw [if_neg h, if_neg (fun hc => h (pad5_inj hc))]
  have hcomplete : completeUpload (eventsBig.foldl
      (fun s p => handleUploadedChunk s p.1 p.2) []) =
      some ((List.insertionSort nameLe
        ((List.range (eventsBig.foldl (fun s p => handleUploadedChunk s p.1 p.2)
          ([] : Scratch)).length).map pad5)).map (fun nm => [lastByteMark nm])).flatten := by
    unfold completeUpload combineUploadedChunks mergeChunks
    rw [readChunkFiles_eq_of_forall _ (fun nm => [lastByteMark nm]) _ hdir]
    rfl
  rw [hcomplete] at hcon
  have hflat : (List.insertionSort nameLe
      ((List.range (eventsBig.foldl (fun s p => handleUploadedChunk s p.1 p.2)
        ([] : Scratch)).length).map pad5)).map lastByteMark = fileBig := by
    have h2 := Option.some.inj hcon
    rw [flatten_map_singleton lastByteMark] at h2
    exact h2
  have hlast_file : fileBig.getLast? = some 1 := by
    unfold fileBig
    exact List.getLast?_concat _
  have h1 : ((List.insertionSort nameLe
      ((List.range (eventsBig.foldl (fun s p => handleUploadedChunk s p.1 p.2)
        ([] : Scratch)).length).map pad5)).map lastByteMark).getLast? = some 1 := by
    rw [hflat]
    exact hlast_file
  rw [List.getLast?_map] at h1
  rcases Option.map_eq_some'.mp h1 with ⟨lastNm, hlastNm, hg⟩
  have hlast_eq : lastNm = pad5 100000 := by
    by_contra hne
    unfold lastByteMark at hg
    rw [if_neg hne] at hg
    exact absurd hg (by norm_num)
  have hmem9 : pad5 99999 ∈ List.insertionSort nameLe
      ((List.range (eventsBig.foldl (fun s p => handleUploadedChunk s p.1 p.2)
        ([] : Scratch)).length).map pad5) := by
    refine (List.perm_insertionSort nameLe _).mem_iff.mpr ?_
    refine List.mem_map.mpr ⟨99999, ?_, rfl⟩
    rw [hsl]
    exact List.mem_range.mpr (by omega)
  have hsorted2 := List.sorted_insertionSort nameLe
    ((List.range (eventsBig.foldl (fun s p => handleUploadedChunk s p.1 p.2)
      ([] : Scratch)).length).map pad5)
  rcases pairwise_getLast?_rel _ hsorted2 (pad5 99999) hmem9 lastNm hlastNm with heq | hrel
  · rw [hlast_eq] at heq
    exact absurd heq (by decide)
  · rw [hlast_eq] at hrel
    exact absurd hrel (by decide)

/-!  Claim C9: completing an upload whose chunk range has gaps.  -/

/-- Claim C9, counterexample.  A 3-byte file is split into 3 one-byte
chunks but only chunks 0 and 1 are accepted — index 2, the end of the
expected range, is missing.  The completion route infers the chunk count
from the number of files present (2), merges chunks 0 and 1, and
*succeeds* — there is no incomplete-upload failure — returning a blob
assembled from fewer chunks than the split produced. -/
theorem C9_counterexample :
    numChunks ([7, 8, 9] : Bytes).length 1 = 3
    ∧ chunkOf [7, 8, 9] 1 0 = [7]
    ∧ chunkOf [7, 8, 9] 1 1 = [8]
    ∧ readScratchFile (handleUploadedChunk (handleUploadedChunk [] 0 [7]) 1 [8])
        (pad5 2) = none
    ∧ completeUpload (handleUploadedChunk (handleUploadedChunk [] 0 [7]) 1 [8]) =
        some [7, 8]
    ∧ (some ([7, 8] : Bytes) ≠ some ([7, 8, 9] : Bytes)) := by
  refine ⟨by decide, by decide, by decide, by decide, by decide, by decide⟩

/-- Claim C9, amended: `completeUpload` takes the number of files present
in the scratch directory as the expected chunk count M; it fails — with a
generic merge error, not a dedicated incomplete-upload error — exactly
when some index in `0..M-1` is missing, i.e. exactly when the present
indices do not form the prefix `0..M-1`; in particular a *trailing* gap
(indices forming a shorter prefix than the true chunk count of the
original file) is not detected: the call succeeds and returns the
concatenation of the present prefix.  (The route's subsequent
`status: 'ready'` write filters on a field absent from the upload schema
and updates nothing, see `completeUpload`.) -/
theorem C9_amended (s : Scratch) :
    (completeUpload s = none ↔ ∃ i < s.length, readScratchFile s (pad5 i) = none)
    ∧ ∀ f : Nat → Bytes, s.length ≤ 100000 →
        (∀ i < s.length, readScratchFile s (pad5 i) = some (f i)) →
        completeUpload s = some ((List.range s.length).map f).flatten := by
  constructor
  · unfold completeUpload combineUploadedChunks mergeChunks
    rw [Option.map_eq_none', readChunkFiles_none_iff]
    constructor
    · rintro ⟨nm, hnm, hnone⟩
      have hnm2 : nm ∈ (List.range s.length).map pad5 :=
        (List.perm_insertionSort nameLe _).mem_iff.mp hnm
      rcases List.mem_map.mp hnm2 with ⟨i, hi, hnmi⟩
      exact ⟨i, List.mem_range.mp hi, by rw [hnmi]; exact hnone⟩
    · rintro ⟨i, hi, hnone⟩
      refine ⟨pad5 i, ?_, hnone⟩
      refine (List.perm_insertionSort nameLe _).mem_iff.mpr ?_
      exact List.mem_map.mpr ⟨i, List.mem_range.mpr hi, rfl⟩
  · intro f hlen hall
    unfold completeUpload combineUploadedChunks mergeChunks
    rw [List.Sorted.insertionSort_eq (pad5_range_sorted s.length hlen)]
    rw [readChunkFiles_map_eq _ pad5 f (List.range s.length)
        (fun i hi => hall i (List.mem_range.mp hi))]
    rfl

/-- Claim C9, amended, witness: with chunks 0 and 1 present the call
succeeds and returns their concatenation. -/
theorem C9_amended_witness :
    completeUpload [(pad5 0, [7]), (pad5 1, [8])] =
      some ((List.range 2).map (fun i => [7 + i])).flatten :=
  (C9_amended [(pad5 0, [7]), (pad5 1, [8])]).2 (fun i => [7 + i]) (by decide) (by decide)

end MediaStreamPro
